import Mathlib

/-
  Verification of the MPM (Metra Potential Method) scheduling engine:
  a shallow embedding of `app.py` (validate_tasks, has_cycle) and
  `mpm_calculator.py` (MPMCalculator) together with proofs about it.

  Modelling conventions:
  * Durations are rationals.  The Python code converts the submitted
    duration with `float(...)`; we embed the post-parse numeric value as
    an exact rational, and the literal `0.001` as `1/1000`.
  * Python dicts keyed by task name are embedded as total functions
    `String -> _` together with the key list (insertion order), which for
    every dict built by the code is the first-occurrence order of task
    names in the input list.
  * Python sets (`task_names`, `visited`, `rec_stack`) are embedded as
    lists with membership tests.  The iteration over the set `task_names`
    in `has_cycle` is embedded as iteration in first-occurrence order;
    the Boolean result is proved independent of that choice (theorem for
    claim C7 characterises it by existence of a cycle).
  * The `while` loops are embedded with explicit fuel; the theorems about
    them prove the fuel is sufficient (the loop reaches its natural exit).
-/

namespace MPM

/-- A task as submitted to the engine: `{name, duration, predecessors}`.
The duration is the parsed numeric value (`float(task['duration'])`). -/
structure Task where
  name : String
  duration : ℚ
  predecessors : List String
deriving DecidableEq, Repr

/-- The declared task names, in input order, with multiplicity
(`[task['name'] for task in tasks]`). -/
def namesList (tasks : List Task) : List String :=
  tasks.map (·.name)

/-- First-occurrence deduplication: the key order of every dict the code
builds by inserting task names in input order. -/
def dedupFirst : List String → List String
  | [] => []
  | x :: xs => x :: (dedupFirst xs).filter (fun y => y ≠ x)

/-- The distinct task names in first-occurrence order: the key list of
`self.dpt`, `self.dpl`, `self.marges` and `in_degree`. -/
def namesDedup (tasks : List Task) : List String :=
  dedupFirst (namesList tasks)

/-- Every name mentioned anywhere (declared names and predecessor
references); the universe the cycle-detection DFS can visit. -/
def allNames (tasks : List Task) : List String :=
  dedupFirst (namesList tasks ++ tasks.flatMap (·.predecessors))

/-- `task_dict[m]`: the dict comprehension `{task['name']: task}` keeps the
last task with a given name. -/
def taskDict (tasks : List Task) (m : String) : Option Task :=
  tasks.reverse.find? (fun t => t.name == m)

/-- `float(self.task_dict[m]['duration'])`, defaulting to `0` off the key
set (the code only queries declared names). -/
def taskDictDur (tasks : List Task) (m : String) : ℚ :=
  match taskDict tasks m with
  | some t => t.duration
  | none => 0

/-! ### Validation (`app.py`) -/

/-- The discriminated error kinds of `validate_tasks` (the code returns
French message strings; we embed each distinct message shape as a
constructor carrying the data interpolated into it). -/
inductive VErr where
  | emptyInput : VErr
  | missingName : Nat → VErr
  | invalidDuration : String → VErr
  | cyclicDependency : VErr
  | unknownPredecessor : String → String → VErr
deriving DecidableEq, Repr

/-- The Python name check `not name or not name.strip()` holds exactly
when the name is empty or consists only of whitespace, i.e. when every
character is whitespace. -/
def blankName (s : String) : Bool :=
  s.data.all (fun c => c.isWhitespace)

/-- The per-task scan of `validate_tasks`: for each task in input order,
the name check (`not name or not name.strip()`) then the duration check
(`duration <= 0`); the position `i+1` is interpolated into the
missing-name message. -/
def perTaskCheck : Nat → List Task → Option VErr
  | _, [] => none
  | i, t :: ts =>
    if blankName t.name then some (VErr.missingName (i + 1))
    else if t.duration ≤ 0 then some (VErr.invalidDuration t.name)
    else perTaskCheck (i + 1) ts

/-- `graph` in `has_cycle`: `graph[task['name']] = task.get('predecessors')`
with dict assignment, so the last task with a given name wins; `graph.get`
returns `[]` for a name that is not a key. -/
def graphFn (tasks : List Task) (m : String) : List String :=
  match taskDict tasks m with
  | some t => t.predecessors
  | none => []

/-- One frame of the recursive `dfs` of `has_cycle`, with fuel.  Returns
the Boolean result and the updated `visited` set; `rec_stack` is the
`stack` argument (pushed on recursion, implicitly popped on return).
The `for neighbor in graph.get(node, [])` loop is a fold that stops
calling into neighbours once `True` was produced (Python returns at that
point, freezing `visited`).  Out of fuel we return `true`; the proofs
show the fuel `|allNames| + 1` used by `has_cycle` never runs out. -/
def dfsNode (g : String → List String) :
    Nat → String → List String → List String → Bool × List String
  | 0, _, visited, _ => (true, visited)
  | fuel + 1, node, visited, stack =>
    if node ∈ stack then (true, visited)
    else if node ∈ visited then (false, visited)
    else
      (g node).foldl
        (fun st n => if st.1 then st else dfsNode g fuel n st.2 (node :: stack))
        (false, node :: visited)

/-- The neighbour loop of `dfs` over an arbitrary list, threading
`visited` and aborting on the first `True`. -/
def dfsList (g : String → List String) (fuel : Nat) (ns : List String)
    (visited stack : List String) : Bool × List String :=
  ns.foldl (fun st n => if st.1 then st else dfsNode g fuel n st.2 stack) (false, visited)

theorem dfsList_skip {g : String → List String} {fuel : Nat} {stack : List String} :
    ∀ (ns : List String) (st : Bool × List String), st.1 = true →
      ns.foldl (fun st n => if st.1 then st else dfsNode g fuel n st.2 stack) st = st := by
  intro ns
  induction ns with
  | nil => intro st _; rfl
  | cons n rest ih =>
    intro st hst
    rw [List.foldl_cons, if_pos hst]
    exact ih st hst

theorem dfsList_cons {g : String → List String} {fuel : Nat} {n : String}
    {rest visited stack : List String} :
    dfsList g fuel (n :: rest) visited stack
      = match dfsNode g fuel n visited stack with
        | (true, v) => (true, v)
        | (false, v) => dfsList g fuel rest v stack := by
  rw [dfsList, List.foldl_cons]
  show List.foldl _ (dfsNode g fuel n visited stack) rest = _
  rcases hd : dfsNode g fuel n visited stack with ⟨b, v⟩
  cases b
  · rfl
  · exact dfsList_skip rest (true, v) rfl

theorem dfsList_nil {g : String → List String} {fuel : Nat} {visited stack : List String} :
    dfsList g fuel [] visited stack = (false, visited) := rfl

theorem dfsNode_zero {g : String → List String} {node : String}
    {visited stack : List String} : dfsNode g 0 node visited stack = (true, visited) := rfl

theorem dfsNode_succ {g : String → List String} {fuel : Nat} {node : String}
    {visited stack : List String} :
    dfsNode g (fuel + 1) node visited stack
      = if node ∈ stack then (true, visited)
        else if node ∈ visited then (false, visited)
        else dfsList g fuel (g node) (node :: visited) (node :: stack) := rfl

/-- The top-level loop of `has_cycle`: DFS from every not-yet-visited
declared name. -/
def hasCycleAux (g : String → List String) (fuel : Nat) :
    List String → List String → Bool
  | [], _ => false
  | n :: rest, visited =>
    if n ∈ visited then hasCycleAux g fuel rest visited
    else
      match dfsNode g fuel n visited [] with
      | (true, _) => true
      | (false, v) => hasCycleAux g fuel rest v

/-- `has_cycle(tasks)` from `app.py`. -/
def has_cycle (tasks : List Task) : Bool :=
  hasCycleAux (graphFn tasks) ((allNames tasks).length + 1) (namesDedup tasks) []

/-- The referential-integrity scan of `validate_tasks`: the first task (in
input order) with a predecessor outside the declared names, reporting
the first such predecessor. -/
def unknownCheck (names : List String) : List Task → Option VErr
  | [] => none
  | t :: ts =>
    match t.predecessors.find? (fun p => decide (p ∉ names)) with
    | some p => some (VErr.unknownPredecessor t.name p)
    | none => unknownCheck names ts

/-- `validate_tasks(tasks)` from `app.py`: empty check, per-task name and
duration checks in input order, cycle check, then unknown-predecessor
check; `none` means the input is accepted. -/
def validate_tasks (tasks : List Task) : Option VErr :=
  if tasks.isEmpty then some VErr.emptyInput
  else
    match perTaskCheck 0 tasks with
    | some e => some e
    | none =>
      if has_cycle tasks then some VErr.cyclicDependency
      else unknownCheck (namesList tasks) tasks

/-! ### EST propagation (`MPMCalculator._calculate_dpt`) -/

/-- Pointwise update of an embedded dict. -/
def setF {α : Type} (f : String → α) (k : String) (v : α) : String → α :=
  fun x => if x = k then v else f x

/-- `successors[c]` as built by `_calculate_dpt` and `_calculate_dpl`:
one entry `task['name']` per occurrence of `c` in a task's predecessor
list, guarded by `if pred in successors` (i.e. `c` declared). -/
def successorsOf (tasks : List Task) (c : String) : List String :=
  if c ∈ namesList tasks then
    tasks.flatMap (fun t => (t.predecessors.filter (fun p => p == c)).map (fun _ => t.name))
  else []

/-- The declared-predecessor occurrences of the name `m`: the edges that
`in_degree[m]` counts (one per occurrence of a declared predecessor in
the predecessor list of a task named `m`). -/
def predOccs (tasks : List Task) (m : String) : List String :=
  (tasks.filter (fun t => t.name == m)).flatMap
    (fun t => t.predecessors.filter (fun p => decide (p ∈ namesList tasks)))

/-- `in_degree[m]` as built by `_calculate_dpt` (an `int` in Python, so we
embed it as `ℤ`; the loop later decrements it below zero is possible only
for re-relaxed names, which the invariants rule out). -/
def initDeg (tasks : List Task) (m : String) : ℤ :=
  ((predOccs tasks m).length : ℤ)

/-- The mutable state of the Kahn traversal in `_calculate_dpt`. -/
structure KState where
  dpt : String → ℚ
  deg : String → ℤ
  queue : List String

/-- Relaxing the edges out of the popped task `c`: the inner
`for successor in successors[current]` loop body. -/
def relaxOne (finish : ℚ) (st : KState) (s : String) : KState :=
  let newDpt := if finish > st.dpt s then setF st.dpt s finish else st.dpt
  let d' := st.deg s - 1
  let newDeg := setF st.deg s d'
  let newQueue := if d' = 0 then st.queue ++ [s] else st.queue
  ⟨newDpt, newDeg, newQueue⟩

/-- Processing a popped task `c` (whose entry has already been removed
from `st.queue`). -/
def kahnStep (tasks : List Task) (st : KState) (c : String) : KState :=
  let finish := st.dpt c + taskDictDur tasks c
  (successorsOf tasks c).foldl (relaxOne finish) st

/-- The `while queue:` loop, with fuel. -/
def kahnRun (tasks : List Task) : Nat → KState → KState
  | 0, st => st
  | fuel + 1, st =>
    match st.queue with
    | [] => st
    | c :: rest => kahnRun tasks fuel (kahnStep tasks { st with queue := rest } c)

/-- The initial state of `_calculate_dpt`: every DPT 0, the initial
in-degrees, and the queue seeded with the zero-in-degree names in
`in_degree` key order. -/
def kahnInit (tasks : List Task) : KState :=
  ⟨fun _ => 0, initDeg tasks,
    (namesDedup tasks).filter (fun m => initDeg tasks m == 0)⟩

/-- The Kahn fuel actually used: one more than the task count (the proofs
show at most `|namesDedup|` iterations ever happen). -/
def kahnFuel (tasks : List Task) : Nat := tasks.length + 1

/-- The final Kahn state. -/
def kahnFinal (tasks : List Task) : KState :=
  kahnRun tasks (kahnFuel tasks) (kahnInit tasks)

/-- `self.dpt` after `_calculate_dpt`. -/
def calcDpt (tasks : List Task) : String → ℚ :=
  (kahnFinal tasks).dpt

/-- `self.project_duration`: the fold `if task_finish > project_duration`
starting from 0, over the tasks in input order. -/
def projectDuration (tasks : List Task) : ℚ :=
  tasks.foldl
    (fun acc t =>
      if calcDpt tasks t.name + t.duration > acc then calcDpt tasks t.name + t.duration
      else acc) 0

/-! ### LST propagation (`MPMCalculator._calculate_dpl`) -/

/-- The minimum of a nonempty list via `foldl`, mirroring Python `min`
over the successor generator (`0` for `[]`, which the code never hits). -/
def listMin : List ℚ → ℚ
  | [] => 0
  | x :: xs => xs.foldl min x

/-- The candidate value computed for one task in the relaxation loop
body: `project_duration - duration` for a terminal task, otherwise
`min(dpl[succ]) - duration`. -/
def newDpl (tasks : List Task) (pd : ℚ) (dpl : String → ℚ) (t : Task) : ℚ :=
  match successorsOf tasks t.name with
  | [] => pd - t.duration
  | s :: rest => (rest.map dpl).foldl min (dpl s) - t.duration

/-- The body of the `for task in self.tasks` loop: update a task's DPL only
when the candidate differs by more than the `0.001` tolerance, recording
whether anything changed. -/
def dplStep (tasks : List Task) (pd : ℚ) (st : (String → ℚ) × Bool) (t : Task) :
    (String → ℚ) × Bool :=
  let nd := newDpl tasks pd st.1 t
  if |nd - st.1 t.name| > 1/1000 then (setF st.1 t.name nd, true) else st

/-- One pass of the relaxation loop over all tasks in input order. -/
def dplPass (tasks : List Task) (pd : ℚ) (st : (String → ℚ) × Bool) :
    (String → ℚ) × Bool :=
  tasks.foldl (dplStep tasks pd) st

/-- The `while changed and iterations < max_iterations` loop: run passes
until a pass reports no change or the budget is exhausted. -/
def dplIter (tasks : List Task) (pd : ℚ) : Nat → (String → ℚ) → String → ℚ
  | 0, dpl => dpl
  | budget + 1, dpl =>
    let st := dplPass tasks pd (dpl, false)
    if st.2 then dplIter tasks pd budget st.1 else st.1

/-- `max_iterations = len(self.tasks) * 2`. -/
def dplCap (tasks : List Task) : Nat := tasks.length * 2

/-- `self.dpl` after `_calculate_dpl`: every DPL initialised to the project
duration, then iterated to the tolerance fixed point under the cap. -/
def calcDpl (tasks : List Task) : String → ℚ :=
  dplIter tasks (projectDuration tasks) (dplCap tasks) (fun _ => projectDuration tasks)

/-! ### Slack and critical path -/

/-- `self.marges`: `dpl - dpt` per name (no clamping in the code). -/
def calcMarges (tasks : List Task) (m : String) : ℚ :=
  calcDpl tasks m - calcDpt tasks m

/-- Stable insertion of `x` into a key-sorted list: `x` goes before the
first element with a strictly larger key, hence after all earlier
elements with an equal key. -/
def insertSorted (key : String → ℚ) (x : String) : List String → List String
  | [] => [x]
  | y :: ys => if key y < key x then y :: insertSorted key x ys else x :: y :: ys

/-- Stable sort by key.  Python's `list.sort(key=...)` is a stable sort,
and a stable sort by a key is extensionally unique, so this insertion
sort is a faithful embedding of `critical_tasks.sort(key=lambda x: dpt[x])`. -/
def insSortBy (key : String → ℚ) : List String → List String
  | [] => []
  | x :: xs => insertSorted key x (insSortBy key xs)

/-- `self.critical_path`: the names whose slack is within the `0.001`
tolerance of zero, in `marges` key order (first-occurrence input order),
stably sorted by ascending DPT. -/
def criticalPath (tasks : List Task) : List String :=
  insSortBy (calcDpt tasks)
    ((namesDedup tasks).filter (fun m => |calcMarges tasks m| < 1/1000))

/-- The result dictionary of `calculate_all`. -/
structure MPMResult where
  dpt : String → ℚ
  dpl : String → ℚ
  marges : String → ℚ
  critical_path : List String
  project_duration : ℚ
  tasks : List Task

/-- `MPMCalculator(tasks).calculate_all()`. -/
def calculate_all (tasks : List Task) : MPMResult :=
  ⟨calcDpt tasks, calcDpl tasks, calcMarges tasks, criticalPath tasks,
    projectDuration tasks, tasks⟩

/-! ### Spec-side definitions -/

/-- The predecessor relation of the spec, restricted to declared task
names: `EdgeRel tasks p t` holds when some task named `t` lists `p` among
its predecessors and `p` is itself a declared name. -/
def EdgeRel (tasks : List Task) (p t : String) : Prop :=
  (∃ T ∈ tasks, T.name = t ∧ p ∈ T.predecessors) ∧ p ∈ namesList tasks

/-- A cycle in a relation: a nonempty closed walk. -/
def HasCycleSpec (E : String → String → Prop) : Prop :=
  ∃ x l, List.Chain E x l ∧ E (l.getLastD x) x

/-- The validation outcome described by the spec sentence for claim C6,
written from the spec's words: per-task name and duration checks first in
input order, then cycle detection, then referential integrity; the first
failing condition is reported. -/
def firstErrorSpec (tasks : List Task) : Option VErr :=
  if tasks = [] then some VErr.emptyInput
  else
    match (tasks.enum.map
        (fun it =>
          if blankName it.2.name then some (VErr.missingName (it.1 + 1))
          else if it.2.duration ≤ 0 then some (VErr.invalidDuration it.2.name)
          else none)).findSome? id with
    | some e => some e
    | none =>
      if has_cycle tasks then some VErr.cyclicDependency
      else
        (tasks.map
          (fun t =>
            match t.predecessors.find? (fun p => ¬ p ∈ namesList tasks) with
            | some p => some (VErr.unknownPredecessor t.name p)
            | none => none)).findSome? id

/-! ### Basic lemmas -/

theorem mem_dedupFirst {l : List String} {x : String} : x ∈ dedupFirst l ↔ x ∈ l := by
  induction l with
  | nil => simp [dedupFirst]
  | cons y ys ih =>
    simp only [dedupFirst, List.mem_cons, List.mem_filter, ih, decide_eq_true_eq, ne_eq]
    constructor
    · rintro (rfl | ⟨h, _⟩)
      · exact Or.inl rfl
      · exact Or.inr h
    · rintro (rfl | h)
      · exact Or.inl rfl
      · by_cases hx : x = y
        · exact Or.inl hx
        · exact Or.inr ⟨h, hx⟩

theorem nodup_dedupFirst (l : List String) : (dedupFirst l).Nodup := by
  induction l with
  | nil => simp [dedupFirst]
  | cons y ys ih =>
    simp only [dedupFirst]
    refine List.nodup_cons.mpr ⟨?_, ih.filter _⟩
    intro hy
    have := (List.mem_filter.mp hy).2
    simp at this

theorem setF_eq {α : Type} (f : String → α) (k : String) (v : α) : setF f k v k = v := by
  simp [setF]

theorem setF_ne {α : Type} (f : String → α) (k : String) (v : α) {x : String} (h : x ≠ k) :
    setF f k v x = f x := by
  simp [setF, h]

theorem length_filter_lt_of_mem {l : List String} {p : String → Bool} {a : String}
    (ha : a ∈ l) (hpa : p a = false) : (l.filter p).length < l.length := by
  induction l with
  | nil => cases ha
  | cons b bs ih =>
    rcases List.mem_cons.mp ha with rfl | hb
    · simp only [List.filter_cons, hpa, List.length_cons]
      exact Nat.lt_succ_of_le (List.length_filter_le _ _)
    · by_cases hp : p b
      · simpa [List.filter_cons, hp] using Nat.succ_lt_succ (ih hb)
      · simp only [List.filter_cons, Bool.not_eq_true] at *
        simp only [hp, List.length_cons]
        exact Nat.lt_succ_of_le (Nat.le_of_lt (ih hb))

theorem filter_eq_of_length_eq {l : List String} {p : String → Bool}
    (h : (l.filter p).length = l.length) : ∀ a ∈ l, p a = true := by
  intro a ha
  by_cases hpa : p a
  · exact hpa
  · exact absurd h (Nat.ne_of_lt (length_filter_lt_of_mem ha (by simpa using hpa)))

theorem length_filter_mem_append {l P : List String} {c : String} (hc : c ∉ P) :
    (l.filter (fun p => decide (p ∈ P ++ [c]))).length
      = (l.filter (fun p => decide (p ∈ P))).length + l.count c := by
  induction l with
  | nil => simp
  | cons a as ih =>
    rw [List.filter_cons, List.filter_cons, List.count_cons]
    by_cases hac : a = c
    · have h1 : decide (a ∈ P ++ [c]) = true := by simp [hac]
      have h2 : ¬ decide (a ∈ P) = true := by
        simp only [decide_eq_true_eq, hac]
        exact hc
      have h3 : (a == c) = true := by simp [hac]
      rw [if_pos h1, if_neg h2, if_pos h3]
      simp only [List.length_cons]
      omega
    · have h3 : ¬ (a == c) = true := by simp [hac]
      rw [if_neg h3]
      by_cases haP : a ∈ P
      · have h1 : decide (a ∈ P ++ [c]) = true := by simp [haP]
        have h2 : decide (a ∈ P) = true := by simp [haP]
        rw [if_pos h1, if_pos h2]
        simp only [List.length_cons]
        omega
      · have h1 : ¬ decide (a ∈ P ++ [c]) = true := by simp [haP, hac]
        have h2 : ¬ decide (a ∈ P) = true := by simp [haP]
        rw [if_neg h1, if_neg h2]
        omega

/-! ### Membership in the successor and predecessor-occurrence lists -/

theorem mem_successorsOf {tasks : List Task} {c m : String} :
    m ∈ successorsOf tasks c ↔
      c ∈ namesList tasks ∧ ∃ t ∈ tasks, t.name = m ∧ c ∈ t.predecessors := by
  unfold successorsOf
  by_cases hc : c ∈ namesList tasks
  · rw [if_pos hc]
    simp only [hc, true_and, List.mem_flatMap, List.mem_map, List.mem_filter, beq_iff_eq]
    constructor
    · rintro ⟨t, ht, p, ⟨hp, rfl⟩, rfl⟩
      exact ⟨t, ht, rfl, hp⟩
    · rintro ⟨t, ht, rfl, hp⟩
      exact ⟨t, ht, c, ⟨hp, rfl⟩, rfl⟩
  · rw [if_neg hc]
    simp [hc]

theorem mem_predOccs {tasks : List Task} {m p : String} :
    p ∈ predOccs tasks m ↔
      p ∈ namesList tasks ∧ ∃ t ∈ tasks, t.name = m ∧ p ∈ t.predecessors := by
  unfold predOccs
  simp only [List.mem_flatMap, List.mem_filter, decide_eq_true_eq, beq_iff_eq]
  constructor
  · rintro ⟨t, ⟨ht, rfl⟩, hp, hpn⟩
    exact ⟨hpn, t, ht, rfl, hp⟩
  · rintro ⟨hpn, t, ht, rfl, hp⟩
    exact ⟨t, ⟨ht, rfl⟩, hp, hpn⟩

theorem successorsOf_transpose {tasks : List Task} {c m : String} :
    m ∈ successorsOf tasks c ↔ c ∈ predOccs tasks m := by
  rw [mem_successorsOf, mem_predOccs]

theorem count_map_const {lf : List String} {n m : String} :
    ((lf.map (fun _ => n)).count m) = if n = m then lf.length else 0 := by
  induction lf with
  | nil => simp
  | cons a as ih =>
    rw [List.map_cons, List.count_cons, ih]
    rcases eq_or_ne n m with h | h
    · simp [h]
    · simp [h]

theorem count_successorsOf_aux (tasks : List Task) (names : List String) (c m : String)
    (hc : c ∈ names) :
    (tasks.flatMap
        (fun t => (t.predecessors.filter (fun p => p == c)).map (fun _ => t.name))).count m
      = ((tasks.filter (fun t => t.name == m)).flatMap
          (fun t => t.predecessors.filter (fun p => decide (p ∈ names)))).count c := by
  induction tasks with
  | nil => simp
  | cons t ts ih =>
    rw [List.flatMap_cons, List.count_append, ih]
    rcases eq_or_ne t.name m with h | h
    · have h1 : ((t.predecessors.filter (fun p => p == c)).map (fun _ => t.name)).count m
          = t.predecessors.count c := by
        rw [count_map_const, if_pos h, List.count_eq_countP, List.countP_eq_length_filter]
      have h2 : (t :: ts).filter (fun t => t.name == m)
          = t :: ts.filter (fun t => t.name == m) := by
        rw [List.filter_cons, if_pos (by simpa using h)]
      rw [h2, List.flatMap_cons, List.count_append, h1,
        List.count_filter (p := fun p => decide (p ∈ names)) (by simpa using hc)]
    · have h1 : ((t.predecessors.filter (fun p => p == c)).map (fun _ => t.name)).count m
          = 0 := by
        rw [count_map_const, if_neg h]
      have h2 : (t :: ts).filter (fun t => t.name == m)
          = ts.filter (fun t => t.name == m) := by
        rw [List.filter_cons, if_neg (by simpa using h)]
      rw [h2, h1]
      omega

theorem count_successorsOf {tasks : List Task} {c m : String} (hc : c ∈ namesList tasks) :
    (successorsOf tasks c).count m = (predOccs tasks m).count c := by
  unfold successorsOf predOccs
  rw [if_pos hc]
  exact count_successorsOf_aux tasks (namesList tasks) c m hc

/-! ### The relaxation fold of `_calculate_dpt` -/

theorem relaxFold_dpt (finish : ℚ) (st : KState) (l : List String) (m : String) :
    (l.foldl (relaxOne finish) st).dpt m
      = if m ∈ l ∧ finish > st.dpt m then finish else st.dpt m := by
  induction l generalizing st with
  | nil => simp
  | cons s l' ih =>
    rw [List.foldl_cons, ih]
    by_cases hms : m = s
    · subst hms
      by_cases hgt : finish > st.dpt m
      · have h1 : (relaxOne finish st m).dpt m = finish := by
          simp [relaxOne, if_pos hgt, setF_eq]
        rw [h1]
        simp [hgt, lt_irrefl]
      · have h1 : (relaxOne finish st m).dpt m = st.dpt m := by
          simp [relaxOne, if_neg hgt]
        rw [h1]
        simp [hgt]
    · have h1 : (relaxOne finish st s).dpt m = st.dpt m := by
        by_cases hgt : finish > st.dpt s <;> simp [relaxOne, hgt, setF_ne _ _ _ hms]
      rw [h1]
      simp [List.mem_cons, hms]

theorem relaxFold_deg (finish : ℚ) (st : KState) (l : List String) (m : String) :
    (l.foldl (relaxOne finish) st).deg m = st.deg m - (l.count m : ℤ) := by
  induction l generalizing st with
  | nil => simp
  | cons s l' ih =>
    rw [List.foldl_cons, ih]
    by_cases hms : m = s
    · subst hms
      have h1 : (relaxOne finish st m).deg m = st.deg m - 1 := by
        simp [relaxOne, setF_eq]
      rw [h1, List.count_cons]
      simp only [beq_self_eq_true, if_pos]
      push_cast
      ring
    · have h1 : (relaxOne finish st s).deg m = st.deg m := by
        simp [relaxOne, setF_ne _ _ _ hms]
      rw [h1, List.count_cons]
      have : (s == m) = false := by simpa using fun h => hms h.symm
      simp [this]

theorem relaxFold_queue (finish : ℚ) (st : KState) (l : List String) :
    ∃ app : List String, (l.foldl (relaxOne finish) st).queue = st.queue ++ app ∧
      app.Nodup ∧
      (∀ m, m ∈ app ↔ m ∈ l ∧ 0 < st.deg m ∧ st.deg m ≤ (l.count m : ℤ)) := by
  induction l generalizing st with
  | nil => exact ⟨[], by simp, List.nodup_nil, by simp⟩
  | cons s l' ih =>
    obtain ⟨app', happ', hnd', hmem'⟩ := ih (relaxOne finish st s)
    have hdegeq : ∀ m, (relaxOne finish st s).deg m
        = if m = s then st.deg m - 1 else st.deg m := by
      intro m
      by_cases hms : m = s
      · subst hms
        simp [relaxOne, setF_eq]
      · simp [relaxOne, setF_ne _ _ _ hms, hms]
    by_cases hdeg : st.deg s - 1 = 0
    · have hqueue : (relaxOne finish st s).queue = st.queue ++ [s] := by
        simp [relaxOne, if_pos hdeg]
      refine ⟨s :: app', ?_, ?_, ?_⟩
      · rw [List.foldl_cons, happ', hqueue, List.append_assoc]
        rfl
      · refine List.nodup_cons.mpr ⟨?_, hnd'⟩
        intro hs
        have := (hmem' s).mp hs
        rw [hdegeq s, if_pos rfl, hdeg] at this
        exact absurd this.2.1 (lt_irrefl 0)
      · intro m
        by_cases hms : m = s
        · subst hms
          simp only [List.mem_cons, true_or, true_iff, true_and]
          refine ⟨by omega, ?_⟩
          rw [List.count_cons]
          simp only [beq_self_eq_true, if_pos]
          push_cast
          omega
        · rw [List.mem_cons, or_iff_right hms, hmem' m, hdegeq m, if_neg hms,
            List.mem_cons, or_iff_right hms, List.count_cons]
          have : (s == m) = false := by simpa using fun h => hms h.symm
          simp [this]
    · have hqueue : (relaxOne finish st s).queue = st.queue := by
        simp [relaxOne, if_neg hdeg]
      refine ⟨app', ?_, hnd', ?_⟩
      · rw [List.foldl_cons, happ', hqueue]
      · intro m
        rw [hmem' m, hdegeq m]
        by_cases hms : m = s
        · subst hms
          rw [if_pos rfl, List.count_cons]
          simp only [beq_self_eq_true, if_pos, List.mem_cons, true_or, true_and]
          by_cases hsl : m ∈ l'
          · simp only [hsl, true_and]
            push_cast
            omega
          · have hcnt : l'.count m = 0 := List.count_eq_zero.mpr hsl
            simp only [hsl, false_and, false_iff, hcnt]
            push_cast
            omega
        · rw [if_neg hms, List.mem_cons, or_iff_right hms, List.count_cons]
          have : (s == m) = false := by simpa using fun h => hms h.symm
          simp [this]

/-! ### The Kahn loop invariant -/

/-- Invariant of the `while queue:` loop of `_calculate_dpt`, relative to
the list `P` of already-popped names (in pop order). -/
structure KInv (tasks : List Task) (st : KState) (P : List String) : Prop where
  pNodup : P.Nodup
  qNodup : st.queue.Nodup
  pqDisj : ∀ m ∈ P, m ∉ st.queue
  pSub : ∀ m ∈ P, m ∈ namesList tasks
  qSub : ∀ m ∈ st.queue, m ∈ namesList tasks
  degIff : ∀ m ∈ namesList tasks, (st.deg m ≤ 0 ↔ m ∈ P ∨ m ∈ st.queue)
  degVal : ∀ m, st.deg m
      = initDeg tasks m - (((predOccs tasks m).filter (fun p => decide (p ∈ P))).length : ℤ)
  dptNonneg : ∀ m, 0 ≤ st.dpt m
  dptLe : ∀ m, ∀ p ∈ predOccs tasks m, p ∈ P →
      st.dpt p + taskDictDur tasks p ≤ st.dpt m
  dptMem : ∀ m, st.dpt m = 0 ∨
      ∃ p ∈ predOccs tasks m, p ∈ P ∧ st.dpt m = st.dpt p + taskDictDur tasks p

theorem kinv_init (tasks : List Task) : KInv tasks (kahnInit tasks) [] := by
  refine ⟨List.nodup_nil, ?_, by simp, by simp, ?_, ?_, ?_, fun _ => le_refl 0, ?_, ?_⟩
  · exact (nodup_dedupFirst _).filter _
  · intro m hm
    exact mem_dedupFirst.mp (List.mem_filter.mp hm).1
  · intro m hm
    simp only [kahnInit, List.not_mem_nil, false_or]
    have hinit : 0 ≤ initDeg tasks m := Int.natCast_nonneg _
    constructor
    · intro hle
      refine List.mem_filter.mpr ⟨mem_dedupFirst.mpr hm, ?_⟩
      have : initDeg tasks m = 0 := le_antisymm hle hinit
      simp [this]
    · intro hq
      have := (List.mem_filter.mp hq).2
      simp only [beq_iff_eq] at this
      simp [this]
  · intro m
    simp [kahnInit]
  · intro m p _ hp
    simp at hp
  · intro m
    exact Or.inl rfl

theorem kinv_step {tasks : List Task} {st : KState} {P : List String} {c : String}
    {rest : List String} (inv : KInv tasks st P) (hq : st.queue = c :: rest) :
    KInv tasks (kahnStep tasks { st with queue := rest } c) (P ++ [c]) := by
  have hcq : c ∈ st.queue := by rw [hq]; exact List.mem_cons_self _ _
  have hcn : c ∈ namesList tasks := inv.qSub c hcq
  have hcP : c ∉ P := fun h => inv.pqDisj c h hcq
  have hdegc : st.deg c ≤ 0 := (inv.degIff c hcn).mpr (Or.inr hcq)
  -- every successor of c still has a positive degree (the edge from c is unrelaxed)
  have htarget : ∀ m ∈ successorsOf tasks c, 0 < st.deg m := by
    intro m hm
    have hcp : c ∈ predOccs tasks m := successorsOf_transpose.mp hm
    have hlt := length_filter_lt_of_mem (p := fun p => decide (p ∈ P)) hcp (by simpa using hcP)
    have hlen : (predOccs tasks m).length = (initDeg tasks m).toNat := by
      simp [initDeg]
    rw [inv.degVal m]
    unfold initDeg
    omega
  have htne : ∀ m ∈ successorsOf tasks c, m ∉ P ∧ m ∉ st.queue := by
    intro m hm
    have hmn : m ∈ namesList tasks := by
      obtain ⟨-, t, ht, rfl, -⟩ := mem_successorsOf.mp hm
      exact List.mem_map_of_mem _ ht
    have := htarget m hm
    by_contra hor
    rcases not_and_or.mp hor with h | h
    · have := (inv.degIff m hmn).mpr (Or.inl (not_not.mp h))
      omega
    · have := (inv.degIff m hmn).mpr (Or.inr (not_not.mp h))
      omega
  have hcsucc : c ∉ successorsOf tasks c := by
    intro h
    have := htarget c h
    omega
  have hrestnd : rest.Nodup ∧ c ∉ rest := by
    have := inv.qNodup
    rw [hq, List.nodup_cons] at this
    exact ⟨this.2, this.1⟩
  -- characterize the fold
  set st' : KState := { st with queue := rest } with hst'
  set finish : ℚ := st.dpt c + taskDictDur tasks c with hfin
  have hstep : kahnStep tasks st' c = (successorsOf tasks c).foldl (relaxOne finish) st' := by
    rfl
  obtain ⟨app, happ, handup, hamem⟩ := relaxFold_queue finish st' (successorsOf tasks c)
  have hdpt : ∀ m, (kahnStep tasks st' c).dpt m
      = if m ∈ successorsOf tasks c ∧ finish > st.dpt m then finish else st.dpt m := by
    intro m
    rw [hstep, relaxFold_dpt]
  have hdeg : ∀ m, (kahnStep tasks st' c).deg m
      = st.deg m - ((successorsOf tasks c).count m : ℤ) := by
    intro m
    rw [hstep, relaxFold_deg]
  have hque : (kahnStep tasks st' c).queue = rest ++ app := by
    rw [hstep, happ]
  have hamem' : ∀ m, m ∈ app ↔
      m ∈ successorsOf tasks c ∧ 0 < st.deg m ∧
        st.deg m ≤ ((successorsOf tasks c).count m : ℤ) := hamem
  -- dpt only grows
  have hdptGe : ∀ m, st.dpt m ≤ (kahnStep tasks st' c).dpt m := by
    intro m
    rw [hdpt m]
    split
    · next h => exact le_of_lt h.2
    · exact le_refl _
  -- names in P or in the old queue are untouched by the fold
  have huntouched : ∀ m, m ∈ P ∨ m ∈ st.queue → (kahnStep tasks st' c).dpt m = st.dpt m := by
    intro m hm
    rw [hdpt m]
    split
    · next h =>
      rcases hm with h' | h'
      · exact absurd h' (htne m h.1).1
      · exact absurd h' (htne m h.1).2
    · rfl
  have hdptc : (kahnStep tasks st' c).dpt c = st.dpt c := huntouched c (Or.inr hcq)
  refine ⟨?_, ?_, ?_, ?_, ?_, ?_, ?_, ?_, ?_, ?_⟩
  · -- P ++ [c] Nodup
    simp [List.nodup_append, inv.pNodup, List.disjoint_singleton, hcP]
  · -- queue Nodup
    rw [hque, List.nodup_append]
    refine ⟨hrestnd.1, handup, ?_⟩
    intro m hmr hma
    have := ((hamem' m).mp hma).2.1
    have hmq : m ∈ st.queue := by rw [hq]; exact List.mem_cons_of_mem _ hmr
    have hmn : m ∈ namesList tasks := inv.qSub m hmq
    have := (inv.degIff m hmn).mpr (Or.inr hmq)
    omega
  · -- popped names never re-enter the queue
    intro m hm
    rw [hque, List.mem_append]
    rcases List.mem_append.mp hm with hmP | hmc
    · rintro (h | h)
      · exact inv.pqDisj m hmP (by rw [hq]; exact List.mem_cons_of_mem _ h)
      · exact (htne m ((hamem' m).mp h).1).1 hmP
    · have hmc : m = c := by simpa using hmc
      subst hmc
      rintro (h | h)
      · exact hrestnd.2 h
      · exact hcsucc ((hamem' m).mp h).1
  · intro m hm
    rcases List.mem_append.mp hm with h | h
    · exact inv.pSub m h
    · have : m = c := by simpa using h
      subst this
      exact hcn
  · intro m hm
    rw [hque] at hm
    rcases List.mem_append.mp hm with h | h
    · exact inv.qSub m (by rw [hq]; exact List.mem_cons_of_mem _ h)
    · obtain ⟨-, t, ht, rfl, -⟩ := mem_successorsOf.mp ((hamem' m).mp h).1
      exact List.mem_map_of_mem _ ht
  · -- degIff
    intro m hmn
    rw [hdeg m, hque]
    by_cases hold : st.deg m ≤ 0
    · have hPQ := (inv.degIff m hmn).mp hold
      have hcount : (0 : ℤ) ≤ ((successorsOf tasks c).count m : ℤ) := Int.natCast_nonneg _
      constructor
      · intro _
        rcases hPQ with h | h
        · exact Or.inl (List.mem_append.mpr (Or.inl h))
        · rw [hq] at h
          rcases List.mem_cons.mp h with rfl | h
          · exact Or.inl (List.mem_append.mpr (Or.inr (List.mem_singleton.mpr rfl)))
          · exact Or.inr (List.mem_append.mpr (Or.inl h))
      · intro _
        omega
    · push_neg at hold
      have hmP : m ∉ P := by
        intro h
        have := (inv.degIff m hmn).mpr (Or.inl h)
        omega
      have hmq : m ∉ st.queue := by
        intro h
        have := (inv.degIff m hmn).mpr (Or.inr h)
        omega
      have hmc : m ≠ c := by
        intro h
        exact hmq (h ▸ hcq)
      have hmrest : m ∉ rest := fun h => hmq (by rw [hq]; exact List.mem_cons_of_mem _ h)
      constructor
      · intro hle
        have hcpos : 0 < ((successorsOf tasks c).count m : ℤ) := by omega
        have hmem : m ∈ successorsOf tasks c := by
          have : 0 < (successorsOf tasks c).count m := by exact_mod_cast hcpos
          exact List.count_pos_iff.mp this
        refine Or.inr (List.mem_append.mpr (Or.inr ?_))
        exact (hamem' m).mpr ⟨hmem, hold, by omega⟩
      · rintro (h | h)
        · rcases List.mem_append.mp h with h | h
          · exact absurd h hmP
          · exact absurd (by simpa using h) hmc
        · rcases List.mem_append.mp h with h | h
          · exact absurd h hmrest
          · have := ((hamem' m).mp h).2.2
            omega
  · -- degVal
    intro m
    rw [hdeg m, inv.degVal m]
    by_cases hcm : c ∈ namesList tasks
    · rw [count_successorsOf hcm, length_filter_mem_append hcP]
      push_cast
      ring
    · exact absurd hcn hcm
  · -- dpt nonneg
    intro m
    rw [hdpt m]
    split
    · next h =>
      exact le_trans (inv.dptNonneg m) (le_of_lt h.2)
    · exact inv.dptNonneg m
  · -- dptLe
    intro m p hp hpP
    rcases List.mem_append.mp hpP with hpP | hpc
    · have hup : (kahnStep tasks st' c).dpt p = st.dpt p := huntouched p (Or.inl hpP)
      rw [hup]
      exact le_trans (inv.dptLe m p hp hpP) (hdptGe m)
    · have hpc : p = c := by simpa using hpc
      subst hpc
      rw [hdptc]
      have hmsucc : m ∈ successorsOf tasks p := successorsOf_transpose.mpr hp
      rw [hdpt m]
      by_cases hgt : finish > st.dpt m
      · rw [if_pos ⟨hmsucc, hgt⟩]
      · rw [if_neg (by simp [hmsucc, hgt])]
        push_neg at hgt
        exact hgt
  · -- dptMem
    intro m
    by_cases hmsucc : m ∈ successorsOf tasks c
    · by_cases hgt : finish > st.dpt m
      · refine Or.inr ⟨c, successorsOf_transpose.mp hmsucc, by simp, ?_⟩
        rw [hdptc, hdpt m, if_pos ⟨hmsucc, hgt⟩]
      · have hm : (kahnStep tasks st' c).dpt m = st.dpt m := by
          rw [hdpt m, if_neg (by simp [hmsucc, hgt])]
        rw [hm]
        rcases inv.dptMem m with h | ⟨p, hp, hpP, hval⟩
        · exact Or.inl h
        · refine Or.inr ⟨p, hp, List.mem_append.mpr (Or.inl hpP), ?_⟩
          rw [huntouched p (Or.inl hpP), hval]
    · have hm : (kahnStep tasks st' c).dpt m = st.dpt m := by
        rw [hdpt m, if_neg (by simp [hmsucc])]
      rw [hm]
      rcases inv.dptMem m with h | ⟨p, hp, hpP, hval⟩
      · exact Or.inl h
      · refine Or.inr ⟨p, hp, List.mem_append.mpr (Or.inl hpP), ?_⟩
        rw [huntouched p (Or.inl hpP), hval]

theorem kahnRun_nil {tasks : List Task} {fuel : Nat} {st : KState} (h : st.queue = []) :
    kahnRun tasks fuel st = st := by
  cases fuel with
  | zero => rfl
  | succ f => simp only [kahnRun, h]

theorem kahnRun_cons {tasks : List Task} {fuel : Nat} {st : KState} {c : String}
    {rest : List String} (h : st.queue = c :: rest) :
    kahnRun tasks (fuel + 1) st
      = kahnRun tasks fuel (kahnStep tasks { st with queue := rest } c) := by
  simp only [kahnRun, h]

theorem kahnRun_add (tasks : List Task) (a b : Nat) (st : KState) :
    kahnRun tasks (a + b) st = kahnRun tasks b (kahnRun tasks a st) := by
  induction a generalizing st with
  | zero => simp [kahnRun]
  | succ a ih =>
    rcases hq : st.queue with _ | ⟨c, rest⟩
    · rw [kahnRun_nil hq, kahnRun_nil hq, kahnRun_nil hq]
    · have harith : a + 1 + b = (a + b) + 1 := by omega
      rw [harith, kahnRun_cons hq, kahnRun_cons hq, ih]

theorem length_dedupFirst_le (l : List String) : (dedupFirst l).length ≤ l.length := by
  induction l with
  | nil => simp [dedupFirst]
  | cons y ys ih =>
    simp only [dedupFirst, List.length_cons]
    exact Nat.succ_le_succ (le_trans (List.length_filter_le _ _) ih)

theorem kahnRun_master (tasks : List Task) :
    ∀ (fuel : Nat) (st : KState) (P : List String), KInv tasks st P →
      (namesDedup tasks).length < fuel + P.length →
      ∃ Pf, KInv tasks (kahnRun tasks fuel st) Pf ∧ (kahnRun tasks fuel st).queue = [] := by
  intro fuel
  induction fuel with
  | zero =>
    intro st P inv hlt
    exfalso
    have hsub : P ⊆ namesDedup tasks := fun m hm => mem_dedupFirst.mpr (inv.pSub m hm)
    have := (List.subperm_of_subset inv.pNodup hsub).length_le
    omega
  | succ fuel ih =>
    intro st P inv hlt
    rcases hqe : st.queue with _ | ⟨c, rest⟩
    · rw [kahnRun_nil hqe]
      exact ⟨P, inv, hqe⟩
    · rw [kahnRun_cons hqe]
      refine ih _ (P ++ [c]) (kinv_step inv hqe) ?_
      rw [List.length_append]
      simp only [List.length_singleton]
      omega

theorem kahnFinal_inv (tasks : List Task) :
    ∃ Pf, KInv tasks (kahnFinal tasks) Pf ∧ (kahnFinal tasks).queue = [] := by
  refine kahnRun_master tasks (kahnFuel tasks) _ [] (kinv_init tasks) ?_
  have h1 := length_dedupFirst_le (namesList tasks)
  have h2 : (namesList tasks).length = tasks.length := List.length_map _ _
  unfold kahnFuel namesDedup
  omega

theorem calcDpt_nonneg (tasks : List Task) (m : String) : 0 ≤ calcDpt tasks m := by
  obtain ⟨Pf, inv, -⟩ := kahnFinal_inv tasks
  exact inv.dptNonneg m

/-! ### Facts extracted from a successful validation -/

theorem perTaskCheck_none {tasks : List Task} :
    ∀ {i : Nat}, perTaskCheck i tasks = none →
      ∀ t ∈ tasks, blankName t.name = false ∧ 0 < t.duration := by
  induction tasks with
  | nil => intro i _ t ht; cases ht
  | cons a as ih =>
    intro i h t ht
    rw [perTaskCheck] at h
    by_cases h1 : blankName a.name
    · rw [if_pos h1] at h; cases h
    · rw [if_neg h1] at h
      by_cases h2 : a.duration ≤ 0
      · rw [if_pos h2] at h; cases h
      · rw [if_neg h2] at h
        rcases List.mem_cons.mp ht with rfl | ht'
        · exact ⟨by simpa using h1, lt_of_not_le h2⟩
        · exact ih h t ht'

theorem perTaskCheck_none_of {tasks : List Task}
    (h : ∀ t ∈ tasks, blankName t.name = false ∧ 0 < t.duration) :
    ∀ i : Nat, perTaskCheck i tasks = none := by
  induction tasks with
  | nil => intro i; rfl
  | cons a as ih =>
    intro i
    have ha := h a (List.mem_cons_self _ _)
    rw [perTaskCheck, if_neg (by simp [ha.1]), if_neg (not_le_of_lt ha.2)]
    exact ih (fun t ht => h t (List.mem_cons_of_mem _ ht)) _

theorem unknownCheck_none {names : List String} {tasks : List Task} :
    unknownCheck names tasks = none ↔
      ∀ t ∈ tasks, ∀ p ∈ t.predecessors, p ∈ names := by
  induction tasks with
  | nil => simp [unknownCheck]
  | cons a as ih =>
    rw [unknownCheck]
    rcases hf : a.predecessors.find? (fun p => decide (p ∉ names)) with _ | p
    · have hall := List.find?_eq_none.mp hf
      simp only [ih]
      constructor
      · intro h t ht
        rcases List.mem_cons.mp ht with rfl | ht'
        · intro p hp
          have := hall p hp
          simpa using this
        · exact h t ht'
      · intro h t ht
        exact h t (List.mem_cons_of_mem _ ht)
    · simp only [reduceCtorEq, false_iff, not_forall]
      have hm := List.find?_some hf
      have hmem := List.mem_of_find?_eq_some hf
      refine ⟨a, List.mem_cons_self _ _, p, hmem, ?_⟩
      simpa using hm

theorem validate_none_iff {tasks : List Task} :
    validate_tasks tasks = none ↔
      tasks ≠ [] ∧ (∀ t ∈ tasks, blankName t.name = false ∧ 0 < t.duration) ∧
        has_cycle tasks = false ∧
        (∀ t ∈ tasks, ∀ p ∈ t.predecessors, p ∈ namesList tasks) := by
  unfold validate_tasks
  by_cases hne : tasks.isEmpty
  · rw [if_pos hne]
    simp only [reduceCtorEq, false_iff]
    intro h
    exact h.1 (List.isEmpty_iff.mp hne)
  · rw [if_neg hne]
    have hne' : tasks ≠ [] := fun h => hne (by simp [h])
    rcases hpt : perTaskCheck 0 tasks with _ | e
    · have hfacts := perTaskCheck_none (i := 0) hpt
      by_cases hcy : has_cycle tasks
      · rw [if_pos hcy]
        simp only [reduceCtorEq, false_iff]
        intro h
        rw [h.2.2.1] at hcy
        cases hcy
      · rw [if_neg hcy]
        rw [unknownCheck_none]
        constructor
        · intro h
          exact ⟨hne', hfacts, Bool.not_eq_true _ ▸ by simpa using hcy, h⟩
        · intro h
          exact h.2.2.2
    · simp only [reduceCtorEq, false_iff]
      intro h
      have := perTaskCheck_none_of h.2.1 0
      rw [hpt] at this
      cases this

/-! ### The project-duration fold -/

theorem foldl_dmax_ge (g : Task → ℚ) (l : List Task) (a : ℚ) :
    a ≤ l.foldl (fun acc t => if g t > acc then g t else acc) a
      ∧ ∀ t ∈ l, g t ≤ l.foldl (fun acc t => if g t > acc then g t else acc) a := by
  induction l generalizing a with
  | nil => simp
  | cons s l' ih =>
    rw [List.foldl_cons]
    set a' := if g s > a then g s else a with ha'
    have haa' : a ≤ a' := by
      rw [ha']
      split
      · next h => exact le_of_lt h
      · exact le_refl a
    have hsa' : g s ≤ a' := by
      rw [ha']
      split
      · exact le_refl _
      · next h => exact le_of_not_lt h
    obtain ⟨h1, h2⟩ := ih a'
    refine ⟨le_trans haa' h1, ?_⟩
    intro t ht
    rcases List.mem_cons.mp ht with rfl | ht'
    · exact le_trans hsa' h1
    · exact h2 t ht'

theorem foldl_dmax_mem (g : Task → ℚ) (l : List Task) (a : ℚ) :
    l.foldl (fun acc t => if g t > acc then g t else acc) a = a
      ∨ ∃ t ∈ l, l.foldl (fun acc t => if g t > acc then g t else acc) a = g t := by
  induction l generalizing a with
  | nil => simp
  | cons s l' ih =>
    rw [List.foldl_cons]
    set a' := if g s > a then g s else a with ha'
    rcases ih a' with h | ⟨t, ht, hval⟩
    · by_cases hgt : g s > a
      · refine Or.inr ⟨s, List.mem_cons_self _ _, ?_⟩
        rw [h, ha', if_pos hgt]
      · refine Or.inl ?_
        rw [h, ha', if_neg hgt]
    · exact Or.inr ⟨t, List.mem_cons_of_mem _ ht, hval⟩

/-! ### DFS cycle-detection: completeness -/

/-- A finish list for the DFS: every graph edge out of a listed node goes
to a strictly earlier position (nodes finish after their descendants). -/
def RankedL (g : String → List String) (L : List String) : Prop :=
  ∀ m ∈ L, ∀ q ∈ g m, q ∈ L ∧ L.indexOf q < L.indexOf m

/-- The invariant tying `visited` and `rec_stack` to a finish list:
the finished nodes (`visited` minus the stack) form a ranked list. -/
def FinPre (g : String → List String) (visited stack : List String) : Prop :=
  ∃ L : List String, L.Nodup ∧ (∀ x, x ∈ L ↔ x ∈ visited ∧ x ∉ stack) ∧ RankedL g L

theorem indexOf_append_new {l : List String} {x : String} (h : x ∉ l) :
    (l ++ [x]).indexOf x = l.length := by
  induction l with
  | nil => simp
  | cons a as ih =>
    have hax : (a == x) = false := by
      simp only [beq_eq_false_iff_ne, ne_eq]
      rintro rfl
      exact h (List.mem_cons_self _ _)
    rw [List.cons_append, List.indexOf_cons, hax]
    simp only [cond_false, List.length_cons]
    rw [ih (fun hh => h (List.mem_cons_of_mem _ hh))]

theorem dfs_complete (g : String → List String) (U : List String)
    (hgU : ∀ x, ∀ y ∈ g x, y ∈ U) :
    ∀ fuel : Nat,
      (∀ node visited stack v',
        stack ⊆ visited → visited ⊆ U → node ∈ U →
        FinPre g visited stack →
        dfsNode g fuel node visited stack = (false, v') →
        visited ⊆ v' ∧ v' ⊆ U ∧ node ∈ v' ∧ node ∉ stack ∧ FinPre g v' stack)
      ∧ (∀ ns visited stack v',
        stack ⊆ visited → visited ⊆ U → (∀ n ∈ ns, n ∈ U) →
        FinPre g visited stack →
        dfsList g fuel ns visited stack = (false, v') →
        visited ⊆ v' ∧ v' ⊆ U ∧ (∀ n ∈ ns, n ∈ v' ∧ n ∉ stack) ∧ FinPre g v' stack) := by
  intro fuel
  induction fuel with
  | zero =>
    constructor
    · intro node visited stack v' _ _ _ _ heq
      rw [dfsNode_zero] at heq
      simp at heq
    · intro ns visited stack v' _ hvU _ hpre heq
      cases ns with
      | nil =>
        rw [dfsList_nil] at heq
        simp only [Prod.mk.injEq, true_and] at heq
        subst heq
        exact ⟨fun _ h => h, hvU, by simp, hpre⟩
      | cons n rest =>
        rw [dfsList_cons, dfsNode_zero] at heq
        simp at heq
  | succ fuel ih =>
    obtain ⟨-, ihL⟩ := ih
    have hnode : ∀ node visited stack v',
        stack ⊆ visited → visited ⊆ U → node ∈ U →
        FinPre g visited stack →
        dfsNode g (fuel + 1) node visited stack = (false, v') →
        visited ⊆ v' ∧ v' ⊆ U ∧ node ∈ v' ∧ node ∉ stack ∧ FinPre g v' stack := by
      intro node visited stack v' hsv hvU hnU hpre heq
      rw [dfsNode_succ] at heq
      by_cases h1 : node ∈ stack
      · rw [if_pos h1] at heq
        simp at heq
      · rw [if_neg h1] at heq
        by_cases h2 : node ∈ visited
        · rw [if_pos h2] at heq
          simp only [Prod.mk.injEq, true_and] at heq
          subst heq
          exact ⟨fun _ h => h, hvU, h2, h1, hpre⟩
        · rw [if_neg h2] at heq
          obtain ⟨L, ndL, hiff, rk⟩ := hpre
          have hpre' : FinPre g (node :: visited) (node :: stack) := by
            refine ⟨L, ndL, ?_, rk⟩
            intro x
            rw [hiff x]
            constructor
            · rintro ⟨hxv, hxs⟩
              have hxn : x ≠ node := fun h => h2 (h ▸ hxv)
              exact ⟨List.mem_cons_of_mem _ hxv,
                fun h => (List.mem_cons.mp h).elim hxn hxs⟩
            · rintro ⟨hxv, hxs⟩
              have hxn : x ≠ node := fun h => hxs (h ▸ List.mem_cons_self _ _)
              exact ⟨(List.mem_cons.mp hxv).resolve_left hxn,
                fun h => hxs (List.mem_cons_of_mem _ h)⟩
          obtain ⟨hsub, hsubU, hall, L₁, nd₁, hiff₁, rk₁⟩ :=
            ihL (g node) (node :: visited) (node :: stack) v'
              (List.cons_subset_cons _ hsv)
              (List.cons_subset.mpr ⟨hnU, hvU⟩)
              (hgU node) hpre' heq
          have hnodev' : node ∈ v' := hsub (List.mem_cons_self _ _)
          have hnodeL₁ : node ∉ L₁ := by
            intro h
            exact ((hiff₁ node).mp h).2 (List.mem_cons_self _ _)
          refine ⟨fun x hx => hsub (List.mem_cons_of_mem _ hx), hsubU, hnodev', h1,
            L₁ ++ [node], ?_, ?_, ?_⟩
          · rw [List.nodup_append]
            exact ⟨nd₁, List.nodup_singleton _,
              fun x hx hx' => hnodeL₁ ((List.mem_singleton.mp hx') ▸ hx)⟩
          · intro x
            by_cases hx : x = node
            · subst hx
              simp only [List.mem_append, List.mem_singleton, or_true, true_iff]
              exact ⟨hnodev', h1⟩
            · rw [List.mem_append, List.mem_singleton, or_iff_left hx, hiff₁ x]
              constructor
              · rintro ⟨hxv, hxs⟩
                exact ⟨hxv, fun h => hxs (List.mem_cons_of_mem _ h)⟩
              · rintro ⟨hxv, hxs⟩
                exact ⟨hxv, fun h => (List.mem_cons.mp h).elim hx hxs⟩
          · intro m hm q hq
            rcases List.mem_append.mp hm with hm₁ | hm₁
            · obtain ⟨hqL, hlt⟩ := rk₁ m hm₁ q hq
              refine ⟨List.mem_append.mpr (Or.inl hqL), ?_⟩
              rw [List.indexOf_append_of_mem hqL, List.indexOf_append_of_mem hm₁]
              exact hlt
            · have hm₁ : m = node := List.mem_singleton.mp hm₁
              subst hm₁
              have hq' := hall q hq
              have hqL : q ∈ L₁ := (hiff₁ q).mpr hq'
              refine ⟨List.mem_append.mpr (Or.inl hqL), ?_⟩
              rw [List.indexOf_append_of_mem hqL, indexOf_append_new hnodeL₁]
              exact List.indexOf_lt_length.mpr hqL
    refine ⟨hnode, ?_⟩
    intro ns
    induction ns with
    | nil =>
      intro visited stack v' _ hvU _ hpre heq
      rw [dfsList_nil] at heq
      simp only [Prod.mk.injEq, true_and] at heq
      subst heq
      exact ⟨fun _ h => h, hvU, by simp, hpre⟩
    | cons n rest ihr =>
      intro visited stack v' hsv hvU hnsU hpre heq
      rcases hd : dfsNode g (fuel + 1) n visited stack with ⟨b, v₁⟩
      cases b
      · rw [dfsList_cons, hd] at heq
        obtain ⟨hv₁, hv₁U, hnv₁, hnstack, hpre₁⟩ :=
          hnode n visited stack v₁ hsv hvU (hnsU n (List.mem_cons_self _ _)) hpre hd
        obtain ⟨hsub₂, hU₂, hall₂, hpre₂⟩ :=
          ihr v₁ stack v' (fun x hx => hv₁ (hsv hx)) hv₁U
            (fun x hx => hnsU x (List.mem_cons_of_mem _ hx)) hpre₁ heq
        refine ⟨fun x hx => hsub₂ (hv₁ hx), hU₂, ?_, hpre₂⟩
        intro x hx
        rcases List.mem_cons.mp hx with rfl | hx'
        · exact ⟨hsub₂ hnv₁, hnstack⟩
        · exact hall₂ x hx'
      · rw [dfsList_cons, hd] at heq
        simp at heq

/-! ### DFS cycle-detection: soundness -/

theorem dfs_sound (g : String → List String) (U : List String)
    (hgU : ∀ x, ∀ y ∈ g x, y ∈ U) :
    ∀ fuel : Nat,
      (∀ node visited stack v',
        stack.Nodup → stack ⊆ U → node ∈ U →
        U.length < fuel + stack.length →
        List.Chain' (fun a b => a ∈ g b) stack →
        (∀ h ∈ stack.head?, node ∈ g h) →
        dfsNode g fuel node visited stack = (true, v') →
        HasCycleSpec (fun a b => a ∈ g b))
      ∧ (∀ ns visited stack v',
        stack.Nodup → stack ⊆ U →
        U.length < fuel + stack.length →
        List.Chain' (fun a b => a ∈ g b) stack →
        (∀ n ∈ ns, n ∈ U ∧ ∀ h ∈ stack.head?, n ∈ g h) →
        dfsList g fuel ns visited stack = (true, v') →
        HasCycleSpec (fun a b => a ∈ g b)) := by
  intro fuel
  induction fuel with
  | zero =>
    have hlen : ∀ stack : List String, stack.Nodup → stack ⊆ U →
        ¬ U.length < 0 + stack.length := by
      intro stack hnd hsub h
      have := (List.subperm_of_subset hnd hsub).length_le
      omega
    constructor
    · intro node visited stack v' hnd hsU _ hfuel _ _ _
      exact absurd hfuel (hlen stack hnd hsU)
    · intro ns visited stack v' hnd hsU hfuel _ _ _
      exact absurd hfuel (hlen stack hnd hsU)
  | succ fuel ih =>
    obtain ⟨-, ihL⟩ := ih
    have hnode : ∀ node visited stack v',
        stack.Nodup → stack ⊆ U → node ∈ U →
        U.length < (fuel + 1) + stack.length →
        List.Chain' (fun a b => a ∈ g b) stack →
        (∀ h ∈ stack.head?, node ∈ g h) →
        dfsNode g (fuel + 1) node visited stack = (true, v') →
        HasCycleSpec (fun a b => a ∈ g b) := by
      intro node visited stack v' hnd hsU hnU hfuel hchain hedge heq
      rw [dfsNode_succ] at heq
      by_cases h1 : node ∈ stack
      · clear heq
        obtain ⟨pre, post, rfl⟩ := List.append_of_mem h1
        rw [List.chain'_append] at hchain
        obtain ⟨hcpre, -, hcross⟩ := hchain
        cases pre with
        | nil =>
          have hself : node ∈ g node := hedge node (by simp)
          exact ⟨node, [], List.Chain.nil, hself⟩
        | cons p₀ pre' =>
          have hcall : node ∈ g p₀ := hedge p₀ (by simp)
          have hnnil : (p₀ :: pre') ≠ [] := List.cons_ne_nil _ _
          have hlastval : (p₀ :: pre').getLastD node = (p₀ :: pre').getLast hnnil := by
            rw [List.getLastD_eq_getLast?, List.getLast?_eq_getLast _ hnnil]
            rfl
          have hclose : ((p₀ :: pre').getLastD node) ∈ g node := by
            rw [hlastval]
            exact hcross _ (List.getLast?_eq_getLast _ hnnil ▸ rfl) node (by simp)
          refine ⟨node, p₀ :: pre', ?_, hclose⟩
          show List.Chain' (fun a b => a ∈ g b) (node :: p₀ :: pre')
          rw [List.chain'_cons]
          exact ⟨hcall, hcpre⟩
      · rw [if_neg h1] at heq
        by_cases h2 : node ∈ visited
        · rw [if_pos h2] at heq
          simp at heq
        · rw [if_neg h2] at heq
          refine ihL (g node) (node :: visited) (node :: stack) v'
            (List.nodup_cons.mpr ⟨h1, hnd⟩)
            (List.cons_subset.mpr ⟨hnU, hsU⟩) ?_ ?_ ?_ heq
          · simp only [List.length_cons]
            omega
          · cases stack with
            | nil => exact List.chain'_singleton _
            | cons h t =>
              rw [List.chain'_cons]
              exact ⟨hedge h (by simp), hchain⟩
          · intro n hn
            exact ⟨hgU node n hn, fun h hh => by
              simp only [List.head?_cons, Option.mem_def, Option.some.injEq] at hh
              exact hh ▸ hn⟩
    refine ⟨hnode, ?_⟩
    intro ns
    induction ns with
    | nil =>
      intro visited stack v' _ _ _ _ _ heq
      rw [dfsList_nil] at heq
      simp at heq
    | cons n rest ihr =>
      intro visited stack v' hnd hsU hfuel hchain hns heq
      rcases hd : dfsNode g (fuel + 1) n visited stack with ⟨b, v₁⟩
      cases b
      · rw [dfsList_cons, hd] at heq
        exact ihr v₁ stack v' hnd hsU hfuel hchain
          (fun x hx => hns x (List.mem_cons_of_mem _ hx)) heq
      · obtain ⟨hU, hed⟩ := hns n (List.mem_cons_self _ _)
        exact hnode n visited stack v₁ hnd hsU hU hfuel hchain hed hd

/-! ### From `has_cycle` to cycles and ranks -/

theorem hasCycleAux_true {g : String → List String} {U : List String} {fuel : Nat}
    (hgU : ∀ x, ∀ y ∈ g x, y ∈ U) (hfuel : U.length < fuel) :
    ∀ roots visited, (∀ n ∈ roots, n ∈ U) →
      hasCycleAux g fuel roots visited = true →
      HasCycleSpec (fun a b => a ∈ g b) := by
  intro roots
  induction roots with
  | nil =>
    intro visited _ h
    simp [hasCycleAux] at h
  | cons n rest ih =>
    intro visited hroots h
    rw [hasCycleAux] at h
    by_cases hv : n ∈ visited
    · rw [if_pos hv] at h
      exact ih visited (fun x hx => hroots x (List.mem_cons_of_mem _ hx)) h
    · rw [if_neg hv] at h
      rcases hd : dfsNode g fuel n visited [] with ⟨b, v₁⟩
      cases b
      · rw [hd] at h
        exact ih v₁ (fun x hx => hroots x (List.mem_cons_of_mem _ hx)) h
      · exact (dfs_sound g U hgU fuel).1 n visited [] v₁ List.nodup_nil
          (by simp) (hroots n (List.mem_cons_self _ _))
          (by simpa using hfuel) List.chain'_nil (by simp) hd

theorem hasCycleAux_false {g : String → List String} {U : List String} {fuel : Nat}
    (hgU : ∀ x, ∀ y ∈ g x, y ∈ U) :
    ∀ roots visited, (∀ n ∈ roots, n ∈ U) → visited ⊆ U → FinPre g visited [] →
      hasCycleAux g fuel roots visited = false →
      ∃ L, L.Nodup ∧ RankedL g L ∧ (∀ x ∈ L, x ∈ U) ∧
        (∀ n ∈ roots, n ∈ L) ∧ (∀ x ∈ visited, x ∈ L) := by
  intro roots
  induction roots with
  | nil =>
    intro visited _ hvU hpre _
    obtain ⟨L, nd, hiff, rk⟩ := hpre
    refine ⟨L, nd, rk, ?_, by simp, ?_⟩
    · intro x hx
      exact hvU ((hiff x).mp hx).1
    · intro x hx
      exact (hiff x).mpr ⟨hx, by simp⟩
  | cons n rest ih =>
    intro visited hroots hvU hpre h
    rw [hasCycleAux] at h
    by_cases hv : n ∈ visited
    · rw [if_pos hv] at h
      obtain ⟨L, nd, rk, hLU, hrest, hvis⟩ :=
        ih visited (fun x hx => hroots x (List.mem_cons_of_mem _ hx)) hvU hpre h
      refine ⟨L, nd, rk, hLU, ?_, hvis⟩
      intro x hx
      rcases List.mem_cons.mp hx with rfl | hx'
      · exact hvis x hv
      · exact hrest x hx'
    · rw [if_neg hv] at h
      rcases hd : dfsNode g fuel n visited [] with ⟨b, v₁⟩
      cases b
      · rw [hd] at h
        obtain ⟨hsub, hv₁U, hnv₁, -, hpre₁⟩ :=
          (dfs_complete g U hgU fuel).1 n visited [] v₁ (by simp) hvU
            (hroots n (List.mem_cons_self _ _)) hpre hd
        obtain ⟨L, nd, rk, hLU, hrest, hvis⟩ :=
          ih v₁ (fun x hx => hroots x (List.mem_cons_of_mem _ hx)) hv₁U hpre₁ h
        refine ⟨L, nd, rk, hLU, ?_, fun x hx => hvis x (hsub hx)⟩
        intro x hx
        rcases List.mem_cons.mp hx with rfl | hx'
        · exact hvis x hnv₁
        · exact hrest x hx'
      · rw [hd] at h
        cases h

theorem graphFn_sub_allNames (tasks : List Task) :
    ∀ x, ∀ y ∈ graphFn tasks x, y ∈ allNames tasks := by
  intro x y hy
  unfold graphFn taskDict at hy
  rcases hf : tasks.reverse.find? (fun t => t.name == x) with _ | T
  · rw [hf] at hy
    cases hy
  · rw [hf] at hy
    have hTmem : T ∈ tasks := List.mem_reverse.mp (List.mem_of_find?_eq_some hf)
    refine mem_dedupFirst.mpr (List.mem_append.mpr (Or.inr ?_))
    exact List.mem_flatMap.mpr ⟨T, hTmem, hy⟩

theorem names_sub_allNames (tasks : List Task) :
    ∀ n ∈ namesList tasks, n ∈ allNames tasks := by
  intro n hn
  exact mem_dedupFirst.mpr (List.mem_append.mpr (Or.inl hn))

theorem has_cycle_false_ranked {tasks : List Task} (h : has_cycle tasks = false) :
    ∃ L, L.Nodup ∧ RankedL (graphFn tasks) L ∧ (∀ x ∈ L, x ∈ allNames tasks) ∧
      (∀ n ∈ namesList tasks, n ∈ L) := by
  unfold has_cycle at h
  obtain ⟨L, nd, rk, hLU, hroots, -⟩ :=
    hasCycleAux_false (U := allNames tasks) (graphFn_sub_allNames tasks)
      (namesDedup tasks) []
      (fun n hn => names_sub_allNames tasks n (mem_dedupFirst.mp hn))
      (by simp)
      ⟨[], List.nodup_nil, by simp, by intro m hm; cases hm⟩ h
  exact ⟨L, nd, rk, hLU, fun n hn => hroots n (mem_dedupFirst.mpr hn)⟩

theorem has_cycle_true_spec {tasks : List Task} (h : has_cycle tasks = true) :
    HasCycleSpec (fun a b => a ∈ graphFn tasks b) := by
  unfold has_cycle at h
  exact hasCycleAux_true (U := allNames tasks) (graphFn_sub_allNames tasks)
    (Nat.lt_succ_self _) (namesDedup tasks) []
    (fun n hn => names_sub_allNames tasks n (mem_dedupFirst.mp hn)) h

theorem chain_idx {g : String → List String} {L : List String} (rk : RankedL g L)
    (cov : ∀ m, g m ≠ [] → m ∈ L) :
    ∀ (l : List String) (x : String), x ∈ L →
      List.Chain (fun a b => a ∈ g b) x l →
      (l.getLastD x) ∈ L ∧ L.indexOf x ≤ L.indexOf (l.getLastD x) := by
  intro l
  induction l with
  | nil =>
    intro x hx _
    exact ⟨hx, le_refl _⟩
  | cons b l' ih =>
    intro x hx hchain
    rw [List.chain_cons] at hchain
    obtain ⟨hxb, hrest⟩ := hchain
    have hbL : b ∈ L := cov b (List.ne_nil_of_mem hxb)
    have hlt : L.indexOf x < L.indexOf b := (rk b hbL x hxb).2
    obtain ⟨hlast, hle⟩ := ih b hbL hrest
    rw [List.getLastD_cons]
    exact ⟨hlast, le_trans (le_of_lt hlt) hle⟩

theorem ranked_no_cycle {g : String → List String} {L : List String} (rk : RankedL g L)
    (cov : ∀ m, g m ≠ [] → m ∈ L) :
    ¬ HasCycleSpec (fun a b => a ∈ g b) := by
  rintro ⟨x, l, hchain, hclose⟩
  have hxL : x ∈ L := cov x (List.ne_nil_of_mem hclose)
  obtain ⟨hlast, hle⟩ := chain_idx rk cov l x hxL hchain
  have := (rk x hxL _ hclose).2
  omega

/-! ### Transfer between the internal graph and the predecessor relation -/

theorem graphFn_edge_task {tasks : List Task} {a b : String} (hab : a ∈ graphFn tasks b) :
    ∃ T ∈ tasks, T.name = b ∧ a ∈ T.predecessors := by
  unfold graphFn taskDict at hab
  rcases hf : tasks.reverse.find? (fun t => t.name == b) with _ | T
  · rw [hf] at hab
    cases hab
  · rw [hf] at hab
    have hTmem : T ∈ tasks := List.mem_reverse.mp (List.mem_of_find?_eq_some hf)
    have hTname : T.name = b := by simpa using List.find?_some hf
    exact ⟨T, hTmem, hTname, hab⟩

theorem hasCycleSpec_to_edgeRel {tasks : List Task}
    (h : HasCycleSpec (fun a b => a ∈ graphFn tasks b)) :
    HasCycleSpec (EdgeRel tasks) := by
  obtain ⟨x, l, hchain, hclose⟩ := h
  have hDecl : ∀ a b : String, a ∈ graphFn tasks b → b ∈ namesList tasks := by
    intro a b hab
    obtain ⟨T, hT, rfl, -⟩ := graphFn_edge_task hab
    exact List.mem_map_of_mem _ hT
  have hmemD : ∀ (l' : List String) (y : String),
      List.Chain (fun a b => a ∈ graphFn tasks b) y l' →
      ∀ z ∈ l', z ∈ namesList tasks := by
    intro l'
    induction l' with
    | nil =>
      intro y _ z hz
      cases hz
    | cons b l'' ih =>
      intro y hch z hz
      rw [List.chain_cons] at hch
      rcases List.mem_cons.mp hz with rfl | hz'
      · exact hDecl y z hch.1
      · exact ih b hch.2 z hz'
  have hxD : x ∈ namesList tasks := hDecl _ x hclose
  refine ⟨x, l, ?_, ?_⟩
  · have hup : ∀ (l' : List String) (y : String), y ∈ namesList tasks →
        List.Chain (fun a b => a ∈ graphFn tasks b) y l' →
        List.Chain (EdgeRel tasks) y l' := by
      intro l'
      induction l' with
      | nil =>
        intro y _ _
        exact List.Chain.nil
      | cons b l'' ih =>
        intro y hyD hch
        rw [List.chain_cons] at hch ⊢
        exact ⟨⟨graphFn_edge_task hch.1, hyD⟩, ih b (hDecl y b hch.1) hch.2⟩
    exact hup l x hxD hchain
  · refine ⟨graphFn_edge_task hclose, ?_⟩
    have := List.getLastD_mem_cons l x
    rcases List.mem_cons.mp this with heq | hmem
    · rw [heq]
      exact hxD
    · exact hmemD l x hchain _ hmem

theorem edgeRel_to_graph {tasks : List Task} (hnd : (namesList tasks).Nodup)
    {p t : String} (h : EdgeRel tasks p t) : p ∈ graphFn tasks t := by
  obtain ⟨⟨T, hT, rfl, hp⟩, -⟩ := h
  unfold graphFn taskDict
  rcases hf : tasks.reverse.find? (fun t' => t'.name == T.name) with _ | T'
  · exfalso
    have := List.find?_eq_none.mp hf T (List.mem_reverse.mpr hT)
    simp at this
  · have hT'mem : T' ∈ tasks := List.mem_reverse.mp (List.mem_of_find?_eq_some hf)
    have hT'name : T'.name = T.name := by simpa using List.find?_some hf
    have hTT : T' = T := List.inj_on_of_nodup_map hnd hT'mem hT hT'name
    rw [hf, hTT]
    exact hp

theorem hasCycleSpec_mono {E E' : String → String → Prop} (h : ∀ a b, E a b → E' a b) :
    HasCycleSpec E → HasCycleSpec E' := by
  rintro ⟨x, l, hc, hcl⟩
  exact ⟨x, l, hc.imp h, h _ _ hcl⟩

/-! ### The task dictionary under distinct names -/

theorem taskDict_mem {tasks : List Task} {p : String} (hp : p ∈ namesList tasks) :
    ∃ T, taskDict tasks p = some T ∧ T ∈ tasks ∧ T.name = p := by
  obtain ⟨T₀, hT₀, hname⟩ := List.mem_map.mp hp
  unfold taskDict
  rcases hf : tasks.reverse.find? (fun t => t.name == p) with _ | T
  · exfalso
    have := List.find?_eq_none.mp hf T₀ (List.mem_reverse.mpr hT₀)
    simp [hname] at this
  · exact ⟨T, hf, List.mem_reverse.mp (List.mem_of_find?_eq_some hf),
      by simpa using List.find?_some hf⟩

theorem taskDictDur_of_nodup {tasks : List Task} (hnd : (namesList tasks).Nodup)
    {t : Task} (ht : t ∈ tasks) : taskDictDur tasks t.name = t.duration := by
  obtain ⟨T, hdict, hTmem, hTname⟩ := taskDict_mem (List.mem_map_of_mem _ ht)
  have : T = t := List.inj_on_of_nodup_map hnd hTmem ht hTname
  rw [taskDictDur, hdict, this]

theorem taskDictDur_pos {tasks : List Task} {p : String} (hp : p ∈ namesList tasks)
    (hdur : ∀ t ∈ tasks, 0 < t.duration) : 0 < taskDictDur tasks p := by
  obtain ⟨T, hdict, hTmem, -⟩ := taskDict_mem hp
  rw [taskDictDur, hdict]
  exact hdur T hTmem

theorem unique_task_filter {tasks : List Task} (hnd : (namesList tasks).Nodup)
    {t : Task} (ht : t ∈ tasks) : tasks.filter (fun u => u.name == t.name) = [t] := by
  induction tasks with
  | nil => cases ht
  | cons a as ih =>
    have hnd' : (namesList as).Nodup ∧ a.name ∉ namesList as := by
      have := hnd
      rw [namesList, List.map_cons, List.nodup_cons] at this
      exact ⟨this.2, this.1⟩
    rcases List.mem_cons.mp ht with rfl | ht'
    · rw [List.filter_cons, if_pos (by simp)]
      have : as.filter (fun u => u.name == t.name) = [] := by
        rw [List.filter_eq_nil]
        intro u hu hcontra
        simp only [beq_iff_eq] at hcontra
        exact hnd'.2 (hcontra ▸ List.mem_map_of_mem _ hu)
      rw [this]
    · have hne : a.name ≠ t.name := by
        intro hcontra
        exact hnd'.2 (hcontra ▸ List.mem_map_of_mem _ ht')
      rw [List.filter_cons, if_neg (by simpa using hne)]
      exact ih hnd'.1 ht'

theorem predOccs_of_nodup {tasks : List Task} (hnd : (namesList tasks).Nodup)
    {t : Task} (ht : t ∈ tasks)
    (hdecl : ∀ p ∈ t.predecessors, p ∈ namesList tasks) :
    predOccs tasks t.name = t.predecessors := by
  rw [predOccs, unique_task_filter hnd ht]
  simp only [List.flatMap_cons, List.flatMap_nil, List.append_nil]
  rw [List.filter_eq_self]
  intro p hp
  simpa using hdecl p hp

/-! ### Completeness of the Kahn traversal on validated inputs -/

theorem kahn_all_popped {tasks : List Task} (hnd : (namesList tasks).Nodup)
    (hval : validate_tasks tasks = none) :
    ∃ Pf, KInv tasks (kahnFinal tasks) Pf ∧ (kahnFinal tasks).queue = [] ∧
      ∀ m ∈ namesList tasks, m ∈ Pf := by
  obtain ⟨Pf, inv, hq⟩ := kahnFinal_inv tasks
  obtain ⟨-, -, hcy, hpred⟩ := validate_none_iff.mp hval
  obtain ⟨L, ndL, rk, -, hcov⟩ := has_cycle_false_ranked hcy
  refine ⟨Pf, inv, hq, ?_⟩
  have main : ∀ k, ∀ m ∈ namesList tasks, L.indexOf m < k → m ∈ Pf := by
    intro k
    induction k with
    | zero =>
      intro m _ h
      omega
    | succ k ih =>
      intro m hm hidx
      have hallP : ∀ p ∈ predOccs tasks m, p ∈ Pf := by
        intro p hp
        have hpn : p ∈ namesList tasks := (mem_predOccs.mp hp).1
        have hedge : EdgeRel tasks p m := ⟨(mem_predOccs.mp hp).2, hpn⟩
        have hpg : p ∈ graphFn tasks m := edgeRel_to_graph hnd hedge
        have hmL : m ∈ L := hcov m hm
        obtain ⟨hpL, hplt⟩ := rk m hmL p hpg
        exact ih p hpn (by omega)
      have hfull : ((predOccs tasks m).filter (fun p => decide (p ∈ Pf))).length
          = (predOccs tasks m).length := by
        have : (predOccs tasks m).filter (fun p => decide (p ∈ Pf)) = predOccs tasks m := by
          rw [List.filter_eq_self]
          intro p hp
          simpa using hallP p hp
        rw [this]
      have hdeg : (kahnFinal tasks).deg m ≤ 0 := by
        rw [inv.degVal m, hfull]
        unfold initDeg
        omega
      have := (inv.degIff m hm).mp hdeg
      rcases this with h | h
      · exact h
      · rw [hq] at h
        cases h
  intro m hm
  exact main (L.length + 1) m hm
    (by
      have := List.indexOf_lt_length.mpr (hcov m hm)
      omega)

/-- The EST recurrence for validated task sets with distinct names. -/
theorem calcDpt_recurrence {tasks : List Task} (hnd : (namesList tasks).Nodup)
    (hval : validate_tasks tasks = none) :
    ∀ t ∈ tasks,
      (t.predecessors = [] → calcDpt tasks t.name = 0) ∧
      (t.predecessors ≠ [] →
        (∃ p ∈ t.predecessors,
          calcDpt tasks t.name = calcDpt tasks p + taskDictDur tasks p) ∧
        ∀ p ∈ t.predecessors,
          calcDpt tasks p + taskDictDur tasks p ≤ calcDpt tasks t.name) := by
  intro t ht
  obtain ⟨Pf, inv, hq, hall⟩ := kahn_all_popped hnd hval
  obtain ⟨-, hpt, -, hpredAll⟩ := validate_none_iff.mp hval
  have hdecl : ∀ p ∈ t.predecessors, p ∈ namesList tasks := hpredAll t ht
  have hocc : predOccs tasks t.name = t.predecessors := predOccs_of_nodup hnd ht hdecl
  constructor
  · intro hnil
    rcases inv.dptMem t.name with h | ⟨p, hp, -, -⟩
    · exact h
    · rw [hocc, hnil] at hp
      cases hp
  · intro hnonnil
    constructor
    · rcases inv.dptMem t.name with h | ⟨p, hp, -, hval'⟩
      · exfalso
        obtain ⟨p, hp⟩ := List.exists_mem_of_ne_nil _ hnonnil
        have hple := inv.dptLe t.name p (hocc ▸ hp) (hall p (hdecl p hp))
        have hd := taskDictDur_pos (hdecl p hp) (fun u hu => (hpt u hu).2)
        have hn := inv.dptNonneg p
        rw [h] at hple
        linarith
      · exact ⟨p, hocc ▸ hp, hval'⟩
    · intro p hp
      exact inv.dptLe t.name p (hocc ▸ hp) (hall p (hdecl p hp))

/-! ### Stability of the LST relaxation loop -/

/-- A task is settled in a DPL state when the loop body would not update
it (the candidate is within the `0.001` tolerance of the stored value). -/
def settled (tasks : List Task) (pd : ℚ) (d : String → ℚ) (t : Task) : Prop :=
  |newDpl tasks pd d t - d t.name| ≤ 1/1000

theorem newDpl_congr {tasks : List Task} {pd : ℚ} {d₁ d₂ : String → ℚ} {t : Task}
    (h : ∀ s ∈ successorsOf tasks t.name, d₁ s = d₂ s) :
    newDpl tasks pd d₁ t = newDpl tasks pd d₂ t := by
  unfold newDpl
  rcases hs : successorsOf tasks t.name with _ | ⟨s, rest⟩
  · rfl
  · have hmap : rest.map d₁ = rest.map d₂ :=
      List.map_congr_left (fun x hx => h x (hs ▸ List.mem_cons_of_mem _ hx))
    show List.foldl min (d₁ s) (rest.map d₁) - t.duration
        = List.foldl min (d₂ s) (rest.map d₂) - t.duration
    rw [hmap, h s (hs ▸ List.mem_cons_self _ _)]

theorem settled_congr {tasks : List Task} {pd : ℚ} {d₁ d₂ : String → ℚ} {t : Task}
    (hn : d₁ t.name = d₂ t.name)
    (hs : ∀ s ∈ successorsOf tasks t.name, d₁ s = d₂ s) :
    settled tasks pd d₁ t ↔ settled tasks pd d₂ t := by
  unfold settled
  rw [newDpl_congr hs, hn]

theorem dplFold_spec {tasks : List Task} {pd : ℚ} {v : String → Nat} {k : Nat}
    (hrank : ∀ t ∈ tasks, ∀ s ∈ successorsOf tasks t.name, v s < v t.name) :
    ∀ (l : List Task) (d : String → ℚ) (ch : Bool),
      (∀ t ∈ l, t ∈ tasks) → (namesList l).Nodup →
      (∀ t ∈ l, v t.name < k → settled tasks pd d t) →
      (∀ m, v m < k → (l.foldl (dplStep tasks pd) (d, ch)).1 m = d m) ∧
      (∀ m, m ∉ namesList l → (l.foldl (dplStep tasks pd) (d, ch)).1 m = d m) ∧
      (∀ t ∈ l, v t.name ≤ k → settled tasks pd (l.foldl (dplStep tasks pd) (d, ch)).1 t) := by
  intro l
  induction l with
  | nil =>
    intro d ch _ _ _
    exact ⟨fun _ _ => rfl, fun _ _ => rfl, by simp⟩
  | cons t l' ih =>
    intro d ch hsub hnodup hP
    have htl : t ∈ tasks := hsub t (List.mem_cons_self _ _)
    have hnodup' : (namesList l').Nodup ∧ t.name ∉ namesList l' := by
      have := hnodup
      rw [namesList, List.map_cons, List.nodup_cons] at this
      exact ⟨this.2, this.1⟩
    rw [List.foldl_cons]
    by_cases hupd : |newDpl tasks pd d t - d t.name| > 1/1000
    · -- the update branch: only possible for a task of rank ≥ k
      have hstep : dplStep tasks pd (d, ch) t
          = (setF d t.name (newDpl tasks pd d t), true) := by
        simp only [dplStep]
        rw [if_pos hupd]
      have hvk : ¬ v t.name < k := by
        intro hlt
        exact absurd (hP t (List.mem_cons_self _ _) hlt) (not_le_of_lt (by simpa using hupd))
      set d₁ := setF d t.name (newDpl tasks pd d t) with hd₁
      have hagree : ∀ m, v m < k → d₁ m = d m := by
        intro m hm
        refine setF_ne _ _ _ (fun hc => hvk ?_)
        rw [← hc]
        exact hm
      have hP' : ∀ u ∈ l', v u.name < k → settled tasks pd d₁ u := by
        intro u hu hvu
        have hutasks : u ∈ tasks := hsub u (List.mem_cons_of_mem _ hu)
        refine (settled_congr (hagree u.name hvu) ?_).mpr (hP u (List.mem_cons_of_mem _ hu) hvu)
        intro s hs
        exact hagree s (lt_trans (hrank u hutasks s hs) hvu)
      obtain ⟨hA, hB, hC⟩ := ih d₁ true
        (fun u hu => hsub u (List.mem_cons_of_mem _ hu)) hnodup'.1 hP'
      rw [hstep]
      refine ⟨?_, ?_, ?_⟩
      · intro m hm
        rw [hA m hm, hagree m hm]
      · intro m hm
        have hm' : m ∉ namesList l' :=
          fun h => hm (List.mem_cons_of_mem _ h)
        have hmt : m ≠ t.name := by
          intro h
          exact hm (h ▸ List.mem_cons_self _ _)
        rw [hB m hm', hd₁, setF_ne _ _ _ hmt]
      · intro u hu hvu
        rcases List.mem_cons.mp hu with rfl | hu'
        · -- u = t: rank exactly k, stored value is the fresh candidate
          have hvt : v u.name = k := by omega
          have hname : (l'.foldl (dplStep tasks pd) (d₁, true)).1 u.name = d₁ u.name :=
            hB u.name hnodup'.2
          have hsuccs2 : ∀ s ∈ successorsOf tasks u.name,
              (l'.foldl (dplStep tasks pd) (d₁, true)).1 s = d₁ s := by
            intro s hs
            have hvs : v s < k := hvt ▸ hrank u htl s hs
            have hsne : s ≠ u.name := by
              intro hc
              rw [hc, hvt] at hvs
              omega
            rw [hA s hvs, hd₁, setF_ne _ _ _ hsne]
          refine (settled_congr hname hsuccs2).mpr ?_
          unfold settled
          have hnd : newDpl tasks pd d₁ u = newDpl tasks pd d u := by
            refine newDpl_congr ?_
            intro s hs
            have hvs : v s < k := hvt ▸ hrank u htl s hs
            refine setF_ne _ _ _ ?_
            intro hc
            rw [hc, hvt] at hvs
            omega
          rw [hnd, hd₁, setF_eq]
          simp
        · exact hC u hu' hvu
    · -- the no-update branch: the state is unchanged
      have hstep : dplStep tasks pd (d, ch) t = (d, ch) := by
        simp only [dplStep]
        rw [if_neg hupd]
      obtain ⟨hA, hB, hC⟩ := ih d ch
        (fun u hu => hsub u (List.mem_cons_of_mem _ hu)) hnodup'.1
        (fun u hu hvu => hP u (List.mem_cons_of_mem _ hu) hvu)
      rw [hstep]
      refine ⟨hA, ?_, ?_⟩
      · intro m hm
        exact hB m (fun h => hm (List.mem_cons_of_mem _ h))
      · intro u hu hvu
        rcases List.mem_cons.mp hu with rfl | hu'
        · have hname : (l'.foldl (dplStep tasks pd) (d, ch)).1 u.name = d u.name :=
            hB u.name hnodup'.2
          have hsuccs : ∀ s ∈ successorsOf tasks u.name,
              (l'.foldl (dplStep tasks pd) (d, ch)).1 s = d s := by
            intro s hs
            exact hA s (lt_of_lt_of_le (hrank u htl s hs) hvu)
          refine (settled_congr hname hsuccs).mpr ?_
          unfold settled
          simpa using hupd
        · exact hC u hu' hvu

theorem dplFold_true (tasks : List Task) (pd : ℚ) :
    ∀ (l : List Task) (d : String → ℚ),
      (l.foldl (dplStep tasks pd) (d, true)).2 = true := by
  intro l
  induction l with
  | nil => intro d; rfl
  | cons t l' ih =>
    intro d
    rw [List.foldl_cons]
    by_cases hupd : |newDpl tasks pd d t - d t.name| > 1/1000
    · rw [show dplStep tasks pd (d, true) t = (setF d t.name (newDpl tasks pd d t), true) by
        simp only [dplStep]; rw [if_pos hupd]]
      exact ih _
    · rw [show dplStep tasks pd (d, true) t = (d, true) by
        simp only [dplStep]; rw [if_neg hupd]]
      exact ih d

theorem dplFold_false {tasks : List Task} {pd : ℚ} :
    ∀ {l : List Task} {d : String → ℚ},
      (l.foldl (dplStep tasks pd) (d, false)).2 = false →
      (l.foldl (dplStep tasks pd) (d, false)).1 = d ∧ ∀ t ∈ l, settled tasks pd d t := by
  intro l
  induction l with
  | nil =>
    intro d _
    exact ⟨rfl, by simp⟩
  | cons t l' ih =>
    intro d h
    rw [List.foldl_cons] at h ⊢
    by_cases hupd : |newDpl tasks pd d t - d t.name| > 1/1000
    · exfalso
      rw [show dplStep tasks pd (d, false) t = (setF d t.name (newDpl tasks pd d t), true) by
        simp only [dplStep]; rw [if_pos hupd]] at h
      rw [dplFold_true] at h
      cases h
    · rw [show dplStep tasks pd (d, false) t = (d, false) by
        simp only [dplStep]; rw [if_neg hupd]] at h ⊢
      obtain ⟨h1, h2⟩ := ih h
      refine ⟨h1, ?_⟩
      intro u hu
      rcases List.mem_cons.mp hu with rfl | hu'
      · exact le_of_not_lt (by simpa using hupd)
      · exact h2 u hu'

theorem dplFold_of_settled {tasks : List Task} {pd : ℚ} :
    ∀ {l : List Task} {d : String → ℚ},
      (∀ t ∈ l, settled tasks pd d t) →
      l.foldl (dplStep tasks pd) (d, false) = (d, false) := by
  intro l
  induction l with
  | nil => intro d _; rfl
  | cons t l' ih =>
    intro d h
    rw [List.foldl_cons]
    have hupd : ¬ |newDpl tasks pd d t - d t.name| > 1/1000 :=
      not_lt_of_le (h t (List.mem_cons_self _ _))
    rw [show dplStep tasks pd (d, false) t = (d, false) by
      simp only [dplStep]; rw [if_neg hupd]]
    exact ih (fun u hu => h u (List.mem_cons_of_mem _ hu))

theorem dplIter_succ (tasks : List Task) (pd : ℚ) (b : Nat) (d : String → ℚ) :
    dplIter tasks pd (b + 1) d
      = if (dplPass tasks pd (d, false)).2 then
          dplIter tasks pd b (dplPass tasks pd (d, false)).1
        else (dplPass tasks pd (d, false)).1 := rfl

theorem dplIter_settled {tasks : List Task} {pd : ℚ} {v : String → Nat} {maxV : Nat}
    (hrank : ∀ t ∈ tasks, ∀ s ∈ successorsOf tasks t.name, v s < v t.name)
    (hnodup : (namesList tasks).Nodup)
    (hbound : ∀ t ∈ tasks, v t.name ≤ maxV) :
    ∀ (b k : Nat) (d : String → ℚ),
      (∀ t ∈ tasks, v t.name < k → settled tasks pd d t) →
      maxV + 1 ≤ k + b →
      ∀ t ∈ tasks, settled tasks pd (dplIter tasks pd b d) t := by
  intro b
  induction b with
  | zero =>
    intro k d hP hb t ht
    exact hP t ht (by have := hbound t ht; omega)
  | succ b ih =>
    intro k d hP hb t ht
    rw [dplIter_succ]
    by_cases hch : (dplPass tasks pd (d, false)).2 = true
    · rw [if_pos hch]
      obtain ⟨-, -, hC⟩ := dplFold_spec (k := k) hrank tasks d false
        (fun u hu => hu) hnodup hP
      refine ih (k + 1) _ ?_ (by omega) t ht
      intro u hu hvu
      exact hC u hu (by omega)
    · rw [if_neg hch]
      have hf : (tasks.foldl (dplStep tasks pd) (d, false)).2 = false := by
        cases h : (tasks.foldl (dplStep tasks pd) (d, false)).2
        · rfl
        · exact absurd h hch
      have hdd := dplFold_false (l := tasks) (d := d) hf
      rw [show (dplPass tasks pd (d, false)).1 = d from hdd.1]
      exact hdd.2 t ht

/-! ### The successor rank on validated inputs -/

theorem allNames_sub_names {tasks : List Task}
    (hpred : ∀ t ∈ tasks, ∀ p ∈ t.predecessors, p ∈ namesList tasks) :
    ∀ x ∈ allNames tasks, x ∈ namesList tasks := by
  intro x hx
  rcases List.mem_append.mp (mem_dedupFirst.mp hx) with h | h
  · exact h
  · obtain ⟨t, ht, hp⟩ := List.mem_flatMap.mp h
    exact hpred t ht x hp

/-- On a validated input with distinct names there is a rank function that
strictly decreases from a task to each of its successors and is bounded by
the task count minus one. -/
theorem successor_rank {tasks : List Task} (hnd : (namesList tasks).Nodup)
    (hval : validate_tasks tasks = none) :
    ∃ v : String → Nat,
      (∀ t ∈ tasks, ∀ s ∈ successorsOf tasks t.name, v s < v t.name) ∧
      (∀ t ∈ tasks, v t.name ≤ tasks.length - 1) := by
  obtain ⟨hne, -, hcy, hpred⟩ := validate_none_iff.mp hval
  obtain ⟨L, ndL, rk, hLU, hcov⟩ := has_cycle_false_ranked hcy
  have hLnames : ∀ x ∈ L, x ∈ namesList tasks :=
    fun x hx => allNames_sub_names hpred x (hLU x hx)
  have hLlen : L.length ≤ tasks.length := by
    have hsub : L ⊆ namesDedup tasks := fun x hx => mem_dedupFirst.mpr (hLnames x hx)
    have h1 := (List.subperm_of_subset ndL hsub).length_le
    have h2 := length_dedupFirst_le (namesList tasks)
    have h3 : (namesList tasks).length = tasks.length := List.length_map _ _
    unfold namesDedup at h1
    omega
  refine ⟨fun m => L.length - 1 - L.indexOf m, ?_, ?_⟩
  · intro t ht s hs
    have hsp : t.name ∈ predOccs tasks s := successorsOf_transpose.mp hs
    have hedge : EdgeRel tasks t.name s := ⟨(mem_predOccs.mp hsp).2, (mem_predOccs.mp hsp).1⟩
    have hsn : s ∈ namesList tasks := by
      obtain ⟨-, u, hu, rfl, -⟩ := mem_successorsOf.mp hs
      exact List.mem_map_of_mem _ hu
    have hsL : s ∈ L := hcov s hsn
    obtain ⟨htL, hlt⟩ := rk s hsL t.name (edgeRel_to_graph hnd hedge)
    have h1 : L.indexOf s < L.length := List.indexOf_lt_length.mpr hsL
    show L.length - 1 - L.indexOf s < L.length - 1 - L.indexOf t.name
    omega
  · intro t ht
    show L.length - 1 - L.indexOf t.name ≤ tasks.length - 1
    omega

theorem calcDpl_settled {tasks : List Task} (hnd : (namesList tasks).Nodup)
    (hval : validate_tasks tasks = none) :
    ∀ t ∈ tasks, settled tasks (projectDuration tasks) (calcDpl tasks) t := by
  obtain ⟨v, hrank, hbound⟩ := successor_rank hnd hval
  obtain ⟨hne, -, -, -⟩ := validate_none_iff.mp hval
  have hlen : 1 ≤ tasks.length := by
    cases tasks with
    | nil => exact absurd rfl hne
    | cons a l => simp
  unfold calcDpl
  refine dplIter_settled hrank hnd hbound (dplCap tasks) 0 _ (by simp) ?_
  unfold dplCap
  omega

/-- The pass over the final DPL values reports no change: the loop reached
its tolerance fixed point within the iteration cap. -/
theorem calcDpl_pass_fixed {tasks : List Task} (hnd : (namesList tasks).Nodup)
    (hval : validate_tasks tasks = none) :
    dplPass tasks (projectDuration tasks) (calcDpl tasks, false) = (calcDpl tasks, false) :=
  dplFold_of_settled (calcDpl_settled hnd hval)

/-! ### Slack is non-negative: DPL dominates DPT throughout the loop -/

theorem le_foldl_min {b a : ℚ} {l : List ℚ} (ha : b ≤ a) (hl : ∀ x ∈ l, b ≤ x) :
    b ≤ l.foldl min a := by
  induction l generalizing a with
  | nil => exact ha
  | cons x xs ih =>
    rw [List.foldl_cons]
    exact ih (le_min ha (hl x (List.mem_cons_self _ _)))
      (fun y hy => hl y (List.mem_cons_of_mem _ hy))

theorem newDpl_ge_dpt {tasks : List Task} (hnd : (namesList tasks).Nodup)
    (hval : validate_tasks tasks = none) {d : String → ℚ}
    (hd : ∀ m ∈ namesList tasks, calcDpt tasks m ≤ d m) :
    ∀ t ∈ tasks, calcDpt tasks t.name ≤ newDpl tasks (projectDuration tasks) d t := by
  intro t ht
  obtain ⟨Pf, inv, hq, hall⟩ := kahn_all_popped hnd hval
  unfold newDpl
  rcases hs : successorsOf tasks t.name with _ | ⟨s, rest⟩
  · show calcDpt tasks t.name ≤ projectDuration tasks - t.duration
    have := (foldl_dmax_ge (fun t => calcDpt tasks t.name + t.duration) tasks 0).2 t ht
    unfold projectDuration
    linarith
  · show calcDpt tasks t.name ≤ List.foldl min (d s) (rest.map d) - t.duration
    have hbound : ∀ x ∈ successorsOf tasks t.name,
        calcDpt tasks t.name + t.duration ≤ d x := by
      intro x hx
      have hxp : t.name ∈ predOccs tasks x := successorsOf_transpose.mp hx
      have hxn : x ∈ namesList tasks := by
        obtain ⟨-, u, hu, rfl, -⟩ := mem_successorsOf.mp hx
        exact List.mem_map_of_mem _ hu
      have h1 := inv.dptLe x t.name hxp (hall t.name (List.mem_map_of_mem _ ht))
      have h2 : taskDictDur tasks t.name = t.duration := taskDictDur_of_nodup hnd ht
      have h3 := hd x hxn
      rw [h2] at h1
      calc calcDpt tasks t.name + t.duration ≤ calcDpt tasks x := h1
        _ ≤ d x := h3
    have hmin : calcDpt tasks t.name + t.duration ≤ List.foldl min (d s) (rest.map d) := by
      refine le_foldl_min (hbound s (hs ▸ List.mem_cons_self _ _)) ?_
      intro y hy
      obtain ⟨x, hx, rfl⟩ := List.mem_map.mp hy
      exact hbound x (hs ▸ List.mem_cons_of_mem _ hx)
    linarith

theorem dplFold_ge_dpt {tasks : List Task} (hnd : (namesList tasks).Nodup)
    (hval : validate_tasks tasks = none) :
    ∀ (l : List Task) (d : String → ℚ) (ch : Bool),
      (∀ t ∈ l, t ∈ tasks) →
      (∀ m ∈ namesList tasks, calcDpt tasks m ≤ d m) →
      ∀ m ∈ namesList tasks,
        calcDpt tasks m ≤ (l.foldl (dplStep tasks (projectDuration tasks)) (d, ch)).1 m := by
  intro l
  induction l with
  | nil =>
    intro d ch _ hd m hm
    exact hd m hm
  | cons t l' ih =>
    intro d ch hsub hd m hm
    have htl : t ∈ tasks := hsub t (List.mem_cons_self _ _)
    rw [List.foldl_cons]
    by_cases hupd : |newDpl tasks (projectDuration tasks) d t - d t.name| > 1/1000
    · rw [show dplStep tasks (projectDuration tasks) (d, ch) t
          = (setF d t.name (newDpl tasks (projectDuration tasks) d t), true) by
        simp only [dplStep]; rw [if_pos hupd]]
      refine ih _ true (fun u hu => hsub u (List.mem_cons_of_mem _ hu)) ?_ m hm
      intro x hx
      by_cases hxt : x = t.name
      · subst hxt
        rw [setF_eq]
        exact newDpl_ge_dpt hnd hval hd t htl
      · rw [setF_ne _ _ _ hxt]
        exact hd x hx
    · rw [show dplStep tasks (projectDuration tasks) (d, ch) t = (d, ch) by
        simp only [dplStep]; rw [if_neg hupd]]
      exact ih d ch (fun u hu => hsub u (List.mem_cons_of_mem _ hu)) hd m hm

theorem calcDpl_ge_dpt {tasks : List Task} (hnd : (namesList tasks).Nodup)
    (hval : validate_tasks tasks = none) :
    ∀ m ∈ namesList tasks, calcDpt tasks m ≤ calcDpl tasks m := by
  obtain ⟨-, hpt, -, -⟩ := validate_none_iff.mp hval
  have hinit : ∀ m ∈ namesList tasks, calcDpt tasks m ≤ projectDuration tasks := by
    intro m hm
    obtain ⟨T, -, hTmem, hTname⟩ := taskDict_mem hm
    have h1 := (foldl_dmax_ge (fun t => calcDpt tasks t.name + t.duration) tasks 0).2 T hTmem
    have h2 := (hpt T hTmem).2
    unfold projectDuration
    rw [← hTname]
    linarith
  have main : ∀ (b : Nat) (d : String → ℚ),
      (∀ m ∈ namesList tasks, calcDpt tasks m ≤ d m) →
      ∀ m ∈ namesList tasks,
        calcDpt tasks m ≤ dplIter tasks (projectDuration tasks) b d m := by
    intro b
    induction b with
    | zero =>
      intro d hd m hm
      exact hd m hm
    | succ b ih =>
      intro d hd m hm
      rw [dplIter_succ]
      by_cases hch : (dplPass tasks (projectDuration tasks) (d, false)).2 = true
      · rw [if_pos hch]
        exact ih _ (dplFold_ge_dpt hnd hval tasks d false (fun u hu => hu) hd) m hm
      · rw [if_neg hch]
        exact dplFold_ge_dpt hnd hval tasks d false (fun u hu => hu) hd m hm
  exact main (dplCap tasks) _ hinit

/-! ### The stable sort of the critical path -/

/-- Strict order by key, ties broken by a (position) index: what a stable
ascending sort by `key` achieves on an input listed in `idx` order. -/
def lexLt (key : String → ℚ) (idx : String → Nat) (a b : String) : Prop :=
  key a < key b ∨ (key a = key b ∧ idx a < idx b)

theorem insertSorted_perm (key : String → ℚ) (x : String) (l : List String) :
    (insertSorted key x l).Perm (x :: l) := by
  induction l with
  | nil => exact List.Perm.refl _
  | cons y ys ih =>
    rw [insertSorted]
    by_cases h : key y < key x
    · rw [if_pos h]
      exact (ih.cons y).trans (List.Perm.swap _ _ _)
    · rw [if_neg h]

theorem insSortBy_perm (key : String → ℚ) (l : List String) :
    (insSortBy key l).Perm l := by
  induction l with
  | nil => exact List.Perm.refl _
  | cons x xs ih =>
    exact (insertSorted_perm key x (insSortBy key xs)).trans (ih.cons x)

theorem insertSorted_pairwise {key : String → ℚ} {idx : String → Nat} {x : String}
    {l : List String} (hl : l.Pairwise (lexLt key idx))
    (hx : ∀ y ∈ l, idx x < idx y) :
    (insertSorted key x l).Pairwise (lexLt key idx) := by
  induction l with
  | nil => simp [insertSorted]
  | cons y ys ih =>
    obtain ⟨hy, hys⟩ := List.pairwise_cons.mp hl
    rw [insertSorted]
    by_cases h : key y < key x
    · rw [if_pos h]
      refine List.pairwise_cons.mpr ⟨?_, ih hys (fun z hz => hx z (List.mem_cons_of_mem _ hz))⟩
      intro z hz
      have hz' : z ∈ x :: ys := (insertSorted_perm key x ys).mem_iff.mp hz
      rcases List.mem_cons.mp hz' with rfl | hz''
      · exact Or.inl h
      · exact hy z hz''
    · rw [if_neg h]
      refine List.pairwise_cons.mpr ⟨?_, hl⟩
      intro z hz
      rcases List.mem_cons.mp hz with rfl | hz'
      · rcases lt_or_eq_of_le (le_of_not_lt h) with hlt | heq
        · exact Or.inl hlt
        · exact Or.inr ⟨heq, hx z (List.mem_cons_self _ _)⟩
      · have hyz : key y ≤ key z := by
          rcases hy z hz' with h' | ⟨h', -⟩
          · exact le_of_lt h'
          · exact le_of_eq h'
        have hxy : key x ≤ key y := le_of_not_lt h
        rcases lt_or_eq_of_le (le_trans hxy hyz) with hlt | heq
        · exact Or.inl hlt
        · exact Or.inr ⟨heq, hx z (List.mem_cons_of_mem _ hz')⟩

theorem insSortBy_pairwise {key : String → ℚ} {idx : String → Nat} {l : List String}
    (h : l.Pairwise (fun a b => idx a < idx b)) :
    (insSortBy key l).Pairwise (lexLt key idx) := by
  induction l with
  | nil => exact List.Pairwise.nil
  | cons x xs ih =>
    obtain ⟨hx, hxs⟩ := List.pairwise_cons.mp h
    refine insertSorted_pairwise (ih hxs) ?_
    intro y hy
    exact hx y ((insSortBy_perm key xs).mem_iff.mp hy)

theorem pairwise_indexOf_of_nodup :
    ∀ (L : List String), L.Nodup → L.Pairwise (fun a b => L.indexOf a < L.indexOf b) := by
  intro L
  induction L with
  | nil => exact fun _ => List.Pairwise.nil
  | cons a l ih =>
    intro hnd
    obtain ⟨ha, hl⟩ := List.nodup_cons.mp hnd
    refine List.pairwise_cons.mpr ⟨?_, ?_⟩
    · intro b hb
      have hab : a ≠ b := fun h => ha (h ▸ hb)
      rw [List.indexOf_cons_self, List.indexOf_cons]
      have : (a == b) = false := by simpa using hab
      rw [this]
      simp
    · refine ((ih hl).imp_of_mem ?_)
      intro x y hx hy hxy
      have hax : a ≠ x := fun h => ha (h ▸ hx)
      have hay : a ≠ y := fun h => ha (h ▸ hy)
      rw [List.indexOf_cons, List.indexOf_cons]
      have h1 : (a == x) = false := by simpa using hax
      have h2 : (a == y) = false := by simpa using hay
      rw [h1, h2]
      simpa using hxy

theorem criticalPath_mem {tasks : List Task} {m : String} :
    m ∈ criticalPath tasks ↔
      m ∈ namesDedup tasks ∧ |calcMarges tasks m| < 1/1000 := by
  unfold criticalPath
  rw [(insSortBy_perm _ _).mem_iff, List.mem_filter]
  simp

theorem criticalPath_sorted (tasks : List Task) :
    (criticalPath tasks).Pairwise
      (lexLt (calcDpt tasks) (fun m => (namesDedup tasks).indexOf m)) := by
  unfold criticalPath
  refine insSortBy_pairwise ?_
  have hpw := pairwise_indexOf_of_nodup (namesDedup tasks) (nodup_dedupFirst _)
  exact List.Pairwise.sublist (List.filter_sublist _) hpw

/-! ### The validation order (C6) -/

theorem perTaskCheck_eq_enum :
    ∀ (ts : List Task) (i : Nat),
      perTaskCheck i ts
        = ((ts.enumFrom i).map
            (fun it =>
              if blankName it.2.name then some (VErr.missingName (it.1 + 1))
              else if it.2.duration ≤ 0 then some (VErr.invalidDuration it.2.name)
              else none)).findSome? id := by
  intro ts
  induction ts with
  | nil =>
    intro i
    rfl
  | cons t ts ih =>
    intro i
    rw [perTaskCheck, List.enumFrom_cons, List.map_cons, List.findSome?_cons]
    by_cases h1 : blankName t.name
    · rw [if_pos h1]
      simp [h1]
    · rw [if_neg h1]
      by_cases h2 : t.duration ≤ 0
      · rw [if_pos h2]
        simp [h1, h2]
      · rw [if_neg h2]
        simp only [h1, h2, if_false, id]
        exact ih (i + 1)

theorem unknownCheck_eq_map :
    ∀ (ts : List Task) (names : List String),
      unknownCheck names ts
        = (ts.map
            (fun t =>
              match t.predecessors.find? (fun p => decide (p ∉ names)) with
              | some p => some (VErr.unknownPredecessor t.name p)
              | none => none)).findSome? id := by
  intro ts
  induction ts with
  | nil =>
    intro names
    rfl
  | cons t ts ih =>
    intro names
    rw [unknownCheck, List.map_cons, List.findSome?_cons]
    rcases hf : t.predecessors.find? (fun p => decide (p ∉ names)) with _ | p
    · simp only [hf, id]
      exact ih names
    · simp [hf]

theorem validate_eq_firstErrorSpec (tasks : List Task) :
    validate_tasks tasks = firstErrorSpec tasks := by
  unfold validate_tasks firstErrorSpec
  by_cases hne : tasks = []
  · subst hne
    rfl
  · rw [if_neg (by simpa using hne), if_neg hne]
    rw [show tasks.enum = tasks.enumFrom 0 from rfl]
    rw [← perTaskCheck_eq_enum tasks 0, ← unknownCheck_eq_map tasks (namesList tasks)]

/-! ### Concrete inputs used by the claim theorems -/

/-- The linear chain of spec scenario 1. -/
def exChain : List Task := [⟨"A", 3, []⟩, ⟨"B", 2, ["A"]⟩, ⟨"C", 4, ["B"]⟩]

/-- The diamond of spec scenario 2. -/
def exDiamond : List Task :=
  [⟨"A", 2, []⟩, ⟨"B", 3, ["A"]⟩, ⟨"C", 1, ["A"]⟩, ⟨"D", 2, ["B", "C"]⟩]

/-- A duplicated name: the second declaration of `A` has a predecessor, so
the shared EST entry of the name `A` is pushed to 5 although the first
task `A` has no predecessors. -/
def exDupJump : List Task := [⟨"A", 1, []⟩, ⟨"B", 5, []⟩, ⟨"A", 2, ["B"]⟩]

/-- Two tasks with the same name and different durations: the LST loop
oscillates between the two sink formulas and exits only through the cap. -/
def exDupOsc : List Task := [⟨"A", 1, []⟩, ⟨"A", 2, []⟩]

/-- A duration of 1/2000 is below the 0.001 tolerance: the first pass
declines the sink update of `B`, leaving every slack at 1/2000 — within
tolerance of zero but not zero. -/
def exTinySlack : List Task := [⟨"B", 1/2000, ["A"]⟩, ⟨"A", 5, []⟩]

/-- Two tasks with the same name and otherwise valid fields. -/
def exDupPair : List Task := [⟨"A", 1, []⟩, ⟨"A", 1, []⟩]

/-- The union of the predecessor lists has the cycle A↔B, but the dict
built by `has_cycle` keeps only the last declaration of `A` (no
predecessors), so the DFS sees an acyclic graph. -/
def exHiddenCycle : List Task := [⟨"A", 1, ["B"]⟩, ⟨"B", 1, ["A"]⟩, ⟨"A", 1, []⟩]

/-- A duplicated name hiding a cycle from validation: the Kahn queue never
seeds, EST stays 0 everywhere, and the LST loop diverges downward until
the cap, leaving the slack of `A` far below zero. -/
def exNegSlack : List Task := [⟨"A", 10, ["B"]⟩, ⟨"B", 1, ["A"]⟩, ⟨"A", 1, []⟩]

/-- A task listing itself as its own predecessor. -/
def exSelfLoop : List Task := [⟨"A", 1, ["A"]⟩]

/-- An input with both a cycle (A↔B) and an unknown predecessor (X). -/
def exBoth : List Task := [⟨"A", 1, ["B"]⟩, ⟨"B", 1, ["A", "X"]⟩]

section

unseal Rat.add Rat.sub Rat.mul Rat.inv

set_option maxRecDepth 8000

/-! ### Claim C1 -/

/-- Claim C1, counterexample: `exDupJump` passes validation, its first
task has no predecessors, yet the EST entry of that task's name is 5, not
0 (a later task with the same name has a predecessor).  The claim as
stated — every task with no predecessors of a validated set has EST 0 —
is false because validation does not reject duplicate names. -/
theorem c1_counterexample :
    validate_tasks exDupJump = none ∧
      (⟨"A", 1, []⟩ : Task) ∈ exDupJump ∧
      (Task.predecessors ⟨"A", 1, []⟩) = [] ∧
      (calculate_all exDupJump).dpt "A" = 5 := by
  refine ⟨by decide, by decide, rfl, by decide⟩

/-- Claim C1 (amended with pairwise-distinct task names): for every task
set that passes validation and has pairwise-distinct names, the computed
EST satisfies the longest-path recurrence: a task with no predecessors has
EST 0, and any other task's EST is the maximum over its predecessors of
the predecessor's EST plus the predecessor's duration. -/
theorem c1_est_recurrence {tasks : List Task} (hnd : (namesList tasks).Nodup)
    (hval : validate_tasks tasks = none) :
    ∀ t ∈ tasks,
      (t.predecessors = [] → (calculate_all tasks).dpt t.name = 0) ∧
      (t.predecessors ≠ [] →
        (∃ p ∈ tasks, p.name ∈ t.predecessors ∧
          (calculate_all tasks).dpt t.name
            = (calculate_all tasks).dpt p.name + p.duration) ∧
        ∀ p ∈ tasks, p.name ∈ t.predecessors →
          (calculate_all tasks).dpt p.name + p.duration
            ≤ (calculate_all tasks).dpt t.name) := by
  intro t ht
  obtain ⟨hzero, hrec⟩ := calcDpt_recurrence hnd hval t ht
  obtain ⟨-, -, -, hpredAll⟩ := validate_none_iff.mp hval
  refine ⟨hzero, ?_⟩
  intro hne
  obtain ⟨⟨p, hp, hval'⟩, hub⟩ := hrec hne
  constructor
  · obtain ⟨T, hdict, hTmem, hTname⟩ := taskDict_mem (hpredAll t ht p hp)
    have hdur : taskDictDur tasks p = T.duration := by
      rw [taskDictDur, hdict]
    refine ⟨T, hTmem, by rw [hTname]; exact hp, ?_⟩
    show calcDpt tasks t.name = calcDpt tasks T.name + T.duration
    rw [hTname, ← hdur]
    exact hval'
  · intro q hq hqp
    have := hub q.name hqp
    rw [taskDictDur_of_nodup hnd hq] at this
    exact this

/-- Claim C1, witness: the amended recurrence evaluated on the linear
chain scenario (task `A` has no predecessors and EST 0). -/
theorem c1_witness :
    (namesList exChain).Nodup ∧ validate_tasks exChain = none ∧
      (calculate_all exChain).dpt "A" = 0 :=
  ⟨by decide, by decide,
    (c1_est_recurrence (by decide) (by decide) ⟨"A", 3, []⟩ (by decide)).1 rfl⟩

/-! ### Claim C2 -/

/-- Claim C2, counterexample: `exDupOsc` passes validation, but the LST
loop oscillates between the two duplicated declarations of `A` and exits
through the iteration cap with a pass still reporting changes; the first
task has no successors yet its LST misses `projectDuration - duration` by
a full unit, far outside the 0.001 tolerance. -/
theorem c2_counterexample :
    validate_tasks exDupOsc = none ∧
      successorsOf exDupOsc "A" = [] ∧
      (dplPass exDupOsc (projectDuration exDupOsc)
        ((calculate_all exDupOsc).dpl, false)).2 = true ∧
      |(calculate_all exDupOsc).dpl "A" - (projectDuration exDupOsc - 1)| > 1/1000 := by
  refine ⟨by decide, by decide, by decide, by decide⟩

/-- Claim C2 (amended with pairwise-distinct task names): on every
validated task set with distinct names the LST loop reaches its tolerance
fixed point within the cap of twice the task count (one more pass reports
no change and leaves the values intact), and the returned values satisfy
the backward recurrence within the 0.001 tolerance: a task with no
successors is within tolerance of `projectDuration - duration`, any other
task within tolerance of the minimum LST over its successors minus its
own duration. -/
theorem c2_lst_fixed_point {tasks : List Task} (hnd : (namesList tasks).Nodup)
    (hval : validate_tasks tasks = none) :
    dplPass tasks (projectDuration tasks) ((calculate_all tasks).dpl, false)
        = ((calculate_all tasks).dpl, false) ∧
      ∀ t ∈ tasks,
        (successorsOf tasks t.name = [] →
          |(calculate_all tasks).dpl t.name - (projectDuration tasks - t.duration)|
            ≤ 1/1000) ∧
        (successorsOf tasks t.name ≠ [] →
          |(calculate_all tasks).dpl t.name -
            (listMin ((successorsOf tasks t.name).map (calculate_all tasks).dpl)
              - t.duration)| ≤ 1/1000) := by
  refine ⟨calcDpl_pass_fixed hnd hval, ?_⟩
  intro t ht
  have hset := calcDpl_settled hnd hval t ht
  unfold settled newDpl at hset
  constructor
  · intro hs
    rw [hs] at hset
    rw [abs_sub_comm]
    exact hset
  · intro hs
    rcases hsucc : successorsOf tasks t.name with _ | ⟨s, rest⟩
    · exact absurd hsucc hs
    · rw [hsucc] at hset
      rw [abs_sub_comm]
      show |(listMin ((s :: rest).map (calculate_all tasks).dpl) - t.duration) -
        (calculate_all tasks).dpl t.name| ≤ 1/1000
      rw [List.map_cons]
      show |((rest.map (calculate_all tasks).dpl).foldl min
          ((calculate_all tasks).dpl s) - t.duration) -
        (calculate_all tasks).dpl t.name| ≤ 1/1000
      exact hset

/-- Claim C2, witness: the fixed point reached on the linear chain. -/
theorem c2_witness :
    (namesList exChain).Nodup ∧ validate_tasks exChain = none ∧
      dplPass exChain (projectDuration exChain) ((calculate_all exChain).dpl, false)
        = ((calculate_all exChain).dpl, false) :=
  ⟨by decide, by decide, (c2_lst_fixed_point (by decide) (by decide)).1⟩

/-! ### Claim C3 -/

/-- Claim C3, counterexample: on `exTinySlack` the slack of `A` is 1/2000,
which is within 0.001 of zero but is reported as 1/2000, not clamped to
exactly 0 — `_calculate_marges` stores the raw difference `LST - EST`. -/
theorem c3_counterexample :
    validate_tasks exTinySlack = none ∧
      |(calculate_all exTinySlack).marges "A"| < 1/1000 ∧
      (calculate_all exTinySlack).marges "A" ≠ 0 := by
  refine ⟨by decide, by decide, by decide⟩

/-- Claim C3 (amended): the reported slack is the raw difference
`LST - EST` with no clamping; the 0.001 tolerance is applied only when
selecting the critical path (membership requires `|slack| < 0.001`). -/
theorem c3_slack_unclamped {tasks : List Task} (hval : validate_tasks tasks = none) :
    ∀ m ∈ namesDedup tasks,
      (calculate_all tasks).marges m
          = (calculate_all tasks).dpl m - (calculate_all tasks).dpt m ∧
        (m ∈ (calculate_all tasks).critical_path ↔
          |(calculate_all tasks).marges m| < 1/1000) := by
  intro m hm
  refine ⟨rfl, ?_⟩
  rw [show (calculate_all tasks).critical_path = criticalPath tasks from rfl,
    criticalPath_mem]
  constructor
  · rintro ⟨-, h⟩
    exact h
  · intro h
    exact ⟨hm, h⟩

/-- Claim C3, witness: the amended statement evaluated at `A` of
`exTinySlack`, whose raw slack is 1/2000. -/
theorem c3_witness :
    validate_tasks exTinySlack = none ∧ "A" ∈ namesDedup exTinySlack ∧
      (calculate_all exTinySlack).marges "A"
        = (calculate_all exTinySlack).dpl "A" - (calculate_all exTinySlack).dpt "A" :=
  ⟨by decide, by decide, (c3_slack_unclamped (by decide) "A" (by decide)).1⟩

/-! ### Claim C4 -/

/-- Claim C4: for every task set passing validation, the critical path
contains exactly the names whose slack is within 0.001 of zero, in
ascending EST order, with ties in EST resolved by original input order
(the first-occurrence position of the name). -/
theorem c4_critical_path {tasks : List Task} (hval : validate_tasks tasks = none) :
    (∀ m, m ∈ (calculate_all tasks).critical_path ↔
        m ∈ namesDedup tasks ∧ |(calculate_all tasks).marges m| < 1/1000) ∧
      (calculate_all tasks).critical_path.Pairwise
        (fun a b => (calculate_all tasks).dpt a < (calculate_all tasks).dpt b ∨
          ((calculate_all tasks).dpt a = (calculate_all tasks).dpt b ∧
            (namesDedup tasks).indexOf a < (namesDedup tasks).indexOf b)) :=
  ⟨fun _ => criticalPath_mem, criticalPath_sorted tasks⟩

/-- Claim C4, witness: the property instantiated on the diamond scenario,
where only `A`, `B`, `D` are critical. -/
theorem c4_witness :
    validate_tasks exDiamond = none ∧
      ("C" ∈ (calculate_all exDiamond).critical_path ↔
        "C" ∈ namesDedup exDiamond ∧ |(calculate_all exDiamond).marges "C"| < 1/1000) ∧
      (calculate_all exDiamond).critical_path = ["A", "B", "D"] :=
  ⟨by decide, (c4_critical_path (by decide)).1 "C", by decide⟩

/-! ### Claim C5 -/

/-- Claim C5, counterexample: the task set `exDupPair` contains the name
`A` twice, yet validation succeeds — `validate_tasks` has no uniqueness
check, contradicting the claim that duplicated names are rejected. -/
theorem c5_counterexample :
    validate_tasks exDupPair = none ∧ (namesList exDupPair).count "A" = 2 := by
  refine ⟨by decide, by decide⟩

/-- Claim C5 (amended): validation does not check name uniqueness; it
accepts a task set — duplicated names or not — exactly when the set is
nonempty, every task has a usable name and positive duration, the
(last-declaration-wins) predecessor graph has no cycle, and every
predecessor reference resolves to a declared name. -/
theorem c5_validation_checks :
    ∀ tasks : List Task,
      validate_tasks tasks = none ↔
        tasks ≠ [] ∧ (∀ t ∈ tasks, blankName t.name = false ∧ 0 < t.duration) ∧
          has_cycle tasks = false ∧
          (∀ t ∈ tasks, ∀ p ∈ t.predecessors, p ∈ namesList tasks) :=
  fun _ => validate_none_iff

/-! ### Claim C6 -/

/-- Claim C6: validation is fail-fast in the fixed order of the spec —
per-task name and duration checks in input order, then cycle detection,
then referential integrity, the first failure being reported — and on an
input with both a cycle and an unknown predecessor it reports the cycle. -/
theorem c6_validation_order :
    (∀ tasks : List Task, validate_tasks tasks = firstErrorSpec tasks) ∧
      validate_tasks exBoth = some VErr.cyclicDependency :=
  ⟨validate_eq_firstErrorSpec, by decide⟩

/-! ### Claim C7 -/

/-- An unknown-predecessor scan can only produce an unknown-predecessor
error. -/
theorem unknownCheck_isSome_shape {names : List String} :
    ∀ {tasks : List Task} {e : VErr}, unknownCheck names tasks = some e →
      ∃ n p, e = VErr.unknownPredecessor n p := by
  intro tasks
  induction tasks with
  | nil =>
    intro e h
    cases h
  | cons a as ih =>
    intro e h
    rw [unknownCheck] at h
    rcases hf : a.predecessors.find? (fun p => decide (p ∉ names)) with _ | p
    · rw [hf] at h
      exact ih h
    · rw [hf] at h
      exact ⟨a.name, p, (Option.some_injective _ h).symm⟩

/-- Under distinct names, the DFS verdict agrees with the existence of a
cycle in the predecessor relation restricted to declared names. -/
theorem has_cycle_iff_edge {tasks : List Task} (hnd : (namesList tasks).Nodup) :
    has_cycle tasks = true ↔ HasCycleSpec (EdgeRel tasks) := by
  constructor
  · intro h
    exact hasCycleSpec_to_edgeRel (has_cycle_true_spec h)
  · intro h
    cases hcy : has_cycle tasks with
    | true => rfl
    | false =>
      exfalso
      obtain ⟨L, -, rk, -, hLN⟩ := has_cycle_false_ranked hcy
      have hgm : ∀ m : String, graphFn tasks m ≠ [] → m ∈ namesList tasks := by
        intro m hm
        unfold graphFn taskDict at hm
        rcases hf : tasks.reverse.find? (fun t => t.name == m) with _ | T
        · rw [hf] at hm
          exact absurd rfl hm
        · have hTmem : T ∈ tasks := List.mem_reverse.mp (List.mem_of_find?_eq_some hf)
          have hTname : T.name = m := by simpa using List.find?_some hf
          exact List.mem_map.mpr ⟨T, hTmem, hTname⟩
      exact ranked_no_cycle rk (fun m hm => hLN m (hgm m hm))
        (hasCycleSpec_mono (fun a b hab => edgeRel_to_graph hnd hab) h)

/-- Claim C7, counterexample: the per-task checks of `exHiddenCycle` pass
and its predecessor relation restricted to declared names has the cycle
`A → B → A`, yet validation succeeds — the adjacency dict built by
`has_cycle` keeps only the last declaration of the duplicated name `A`,
whose predecessor list is empty, so the DFS never sees the cycle. -/
theorem c7_counterexample :
    perTaskCheck 0 exHiddenCycle = none ∧
      validate_tasks exHiddenCycle = none ∧
      HasCycleSpec (EdgeRel exHiddenCycle) := by
  refine ⟨by decide, by decide, "A", ["B"], ?_, ?_⟩
  · refine List.Chain.cons ?_ List.Chain.nil
    exact ⟨⟨⟨"B", 1, ["A"]⟩, by decide, rfl, by decide⟩, by decide⟩
  · show EdgeRel exHiddenCycle "B" "A"
    exact ⟨⟨⟨"A", 1, ["B"]⟩, by decide, rfl, by decide⟩, by decide⟩

/-- Claim C7 (amended with pairwise-distinct task names): when the
per-task checks pass and the names are distinct, validation returns
`CyclicDependency` exactly when the predecessor relation restricted to
declared names has a cycle (self-loops included). -/
theorem c7_cycle_iff {tasks : List Task} (hnd : (namesList tasks).Nodup)
    (hpt : perTaskCheck 0 tasks = none) :
    validate_tasks tasks = some VErr.cyclicDependency ↔
      HasCycleSpec (EdgeRel tasks) := by
  by_cases he : tasks.isEmpty
  · constructor
    · intro h
      unfold validate_tasks at h
      rw [if_pos he] at h
      simp at h
    · rintro ⟨x, l, -, ⟨⟨T, hT, -, -⟩, -⟩⟩
      rw [List.isEmpty_iff.mp he] at hT
      cases hT
  · have hform : validate_tasks tasks =
        if has_cycle tasks then some VErr.cyclicDependency
        else unknownCheck (namesList tasks) tasks := by
      unfold validate_tasks
      rw [if_neg he, hpt]
    rw [hform, ← has_cycle_iff_edge hnd]
    constructor
    · intro h
      by_cases hcy : has_cycle tasks
      · exact hcy
      · rw [if_neg hcy] at h
        obtain ⟨n, p, hshape⟩ := unknownCheck_isSome_shape h
        cases hshape
    · intro h
      rw [if_pos h]

/-- Claim C7, witness: the task listing itself as its own predecessor is
rejected with `CyclicDependency` — the self-loop is a cycle of length
one of the predecessor relation. -/
theorem c7_witness :
    (namesList exSelfLoop).Nodup ∧ perTaskCheck 0 exSelfLoop = none ∧
      validate_tasks exSelfLoop = some VErr.cyclicDependency :=
  ⟨by decide, by decide,
    (c7_cycle_iff (by decide) (by decide)).mpr
      ⟨"A", [], List.Chain.nil,
        ⟨⟨⟨"A", 1, ["A"]⟩, by decide, rfl, by decide⟩, by decide⟩⟩⟩

/-! ### Claim C8 -/

/-- Claim C8: on every validated input the reported project duration is
exactly the maximum over the tasks of the task's EST plus its duration —
an upper bound on every task that is attained by some task. -/
theorem c8_project_duration {tasks : List Task} (hval : validate_tasks tasks = none) :
    (∀ t ∈ tasks, (calculate_all tasks).dpt t.name + t.duration
        ≤ (calculate_all tasks).project_duration) ∧
      ∃ t ∈ tasks, (calculate_all tasks).project_duration
          = (calculate_all tasks).dpt t.name + t.duration := by
  obtain ⟨hne, hpt, -, -⟩ := validate_none_iff.mp hval
  have hub := (foldl_dmax_ge (fun t => calcDpt tasks t.name + t.duration) tasks 0).2
  refine ⟨fun t ht => hub t ht, ?_⟩
  rcases foldl_dmax_mem (fun t => calcDpt tasks t.name + t.duration) tasks 0
    with h0 | ⟨t, ht, hv⟩
  · exfalso
    obtain ⟨a, ha⟩ := List.exists_mem_of_ne_nil tasks hne
    have hub' : calcDpt tasks a.name + a.duration
        ≤ tasks.foldl
          (fun acc t => if calcDpt tasks t.name + t.duration > acc
            then calcDpt tasks t.name + t.duration else acc) 0 := hub a ha
    rw [h0] at hub'
    have hd := (hpt a ha).2
    have hn := calcDpt_nonneg tasks a.name
    linarith
  · exact ⟨t, ht, hv⟩

/-- Claim C8, witness: on the linear chain the finish time of `C` is
bounded by the project duration. -/
theorem c8_witness :
    validate_tasks exChain = none ∧
      (calculate_all exChain).dpt "C" + 4 ≤ (calculate_all exChain).project_duration :=
  ⟨by decide, (c8_project_duration (by decide)).1 ⟨"C", 4, ["B"]⟩ (by decide)⟩

/-! ### Claim C9 -/

/-- Claim C9, counterexample: `exNegSlack` passes validation — the
duplicated declaration of `A` hides the cycle from the DFS — but the
Kahn queue never seeds, every EST stays 0, the LST loop runs into its
cap while diverging downward, and the slack of `A` ends far below even
the −0.001 tolerance. -/
theorem c9_counterexample :
    validate_tasks exNegSlack = none ∧
      (calculate_all exNegSlack).dpl "A" <
        (calculate_all exNegSlack).dpt "A" - 1/1000 := by
  refine ⟨by decide, by decide⟩

/-- Claim C9 (amended with pairwise-distinct task names): on every
validated input with distinct names, every task has a non-negative EST
and an LST at least its EST, hence a non-negative slack (even without
the 0.001 tolerance the claim grants). -/
theorem c9_slack_nonneg {tasks : List Task} (hnd : (namesList tasks).Nodup)
    (hval : validate_tasks tasks = none) :
    ∀ t ∈ tasks, 0 ≤ (calculate_all tasks).dpt t.name ∧
      (calculate_all tasks).dpt t.name ≤ (calculate_all tasks).dpl t.name ∧
      0 ≤ (calculate_all tasks).marges t.name := by
  intro t ht
  have hm : t.name ∈ namesList tasks := List.mem_map.mpr ⟨t, ht, rfl⟩
  have h1 := calcDpt_nonneg tasks t.name
  have h2 := calcDpl_ge_dpt hnd hval t.name hm
  refine ⟨h1, h2, ?_⟩
  have h3 : (calculate_all tasks).marges t.name
      = calcDpl tasks t.name - calcDpt tasks t.name := rfl
  rw [h3]
  linarith

/-- Claim C9, witness: the non-negative slack of the non-critical task
`C` of the diamond. -/
theorem c9_witness :
    (namesList exDiamond).Nodup ∧ validate_tasks exDiamond = none ∧
      0 ≤ (calculate_all exDiamond).dpt "C" ∧
      (calculate_all exDiamond).dpt "C" ≤ (calculate_all exDiamond).dpl "C" :=
  ⟨by decide, by decide,
    (c9_slack_nonneg (by decide) (by decide) ⟨"C", 1, ["A"]⟩ (by decide)).1,
    (c9_slack_nonneg (by decide) (by decide) ⟨"C", 1, ["A"]⟩ (by decide)).2.1⟩

/-! ### Claim C10 -/

/-- Claim C10: on every input — cyclic, duplicated or dangling references
included — the engine terminates and covers every task: the Kahn queue is
empty when the fuel `|tasks| + 1` runs out (any further fuel leaves the
state unchanged, so the `while queue` loop has genuinely finished), the
LST loop is by construction the `2 × |tasks|`-pass iterate, and every
input task's name is a key of the EST dict and gets the slack entry
`dpl − dpt`. -/
theorem c10_termination :
    ∀ tasks : List Task,
      (kahnFinal tasks).queue = [] ∧
      (∀ extra : Nat, kahnRun tasks extra (kahnFinal tasks) = kahnFinal tasks) ∧
      (calculate_all tasks).dpl
          = dplIter tasks (projectDuration tasks) (dplCap tasks)
              (fun _ => projectDuration tasks) ∧
      ∀ t ∈ tasks, t.name ∈ namesDedup tasks ∧
        (calculate_all tasks).marges t.name
          = (calculate_all tasks).dpl t.name - (calculate_all tasks).dpt t.name := by
  intro tasks
  obtain ⟨Pf, -, hq⟩ := kahnFinal_inv tasks
  refine ⟨hq, fun extra => kahnRun_nil hq, rfl, ?_⟩
  intro t ht
  exact ⟨mem_dedupFirst.mpr (List.mem_map.mpr ⟨t, ht, rfl⟩), rfl⟩

end

end MPM
